import Mathlib

/-!
Verification of the StreamLink dependency-resolution and orchestrated-deployment
engine.  The graph model, resolver (transitive closure, topological order),
plan builders and orchestrator are embedded as executable Lean definitions;
the frontend deploy/delete/reconcile flows are embedded from
`frontend/src/pages/Services.jsx`.  The backend resolver sources are not part
of the repository snapshot, so those definitions are modelled from the
specification (each such definition says so in its doc comment).
-/

set_option maxRecDepth 10000

namespace StreamLink

/-- A service kind is identified by its canonical name (e.g. "kafka"). -/
abbrev Kind := String

/-- Modelled from the spec: the static, named, directed dependency graph over
service kinds (`SERVICE_DEPENDENCIES` plus `SERVICE_DISPLAY_NAMES` in
`backend/src/utils/dependencies.py`, which is not in the snapshot).
`decls` maps each declared kind to its ordered list of direct dependencies,
`displays` maps kinds to human-readable display names. -/
structure Graph where
  decls : List (Kind × List Kind)
  displays : List (Kind × String)

/-- Modelled from the spec: `dependenciesOf(kind)` returns the declared direct
dependencies of a kind, in declaration order; undeclared kinds have none. -/
def dependenciesOf (g : Graph) (k : Kind) : List Kind :=
  match g.decls.find? (fun p => decide (p.1 = k)) with
  | some p => p.2
  | none => []

/-- Modelled from the spec: `allKinds()`, the declared service-kind names. -/
def allKinds (g : Graph) : List Kind :=
  g.decls.map Prod.fst

/-- Modelled from the spec: `displayName(kind)`, falling back to the raw kind
name if undeclared. -/
def displayName (g : Graph) (k : Kind) : String :=
  match g.displays.find? (fun p => decide (p.1 = k)) with
  | some p => p.2
  | none => k

/-- The direct-dependency edge relation: `depStep g a b` holds when `b` is a
declared direct dependency of `a`. -/
def depStep (g : Graph) (a b : Kind) : Prop :=
  b ∈ dependenciesOf g a

/-- Modelled from the spec: the recursive depth-first visitation underlying
`transitiveClosure`.  The state is `(visited, result)`; a node is marked
visited on entry, its direct dependencies are visited recursively, and the
node is then appended to the result unless it is the closure's target.
`fuel` is an explicit recursion budget (the source recursion terminates
because the visited set grows; the budget chosen in `transitiveClosure` is
proved large enough below). -/
def tcGo (g : Graph) (t : Kind) : Nat → List Kind → List Kind × List Kind → List Kind × List Kind
  | 0, _, st => st
  | _ + 1, [], st => st
  | f + 1, k :: rest, st =>
    if k ∈ st.1 then
      tcGo g t f rest st
    else
      let st1 := tcGo g t f (dependenciesOf g k) (k :: st.1, st.2)
      tcGo g t f rest (if k = t then st1 else (st1.1, st1.2 ++ [k]))

/-- Fuel cost attributed to one graph node by the closure computation. -/
def tcCost (g : Graph) (u : Kind) : Nat :=
  (dependenciesOf g u).length + 1

/-- Every kind the closure computation for target `t` can ever visit. -/
def tcUniverse (g : Graph) (t : Kind) : List Kind :=
  t :: g.decls.flatMap (fun p => p.2)

/-- A recursion budget sufficient for the whole closure computation. -/
def tcFuel (g : Graph) (t : Kind) : Nat :=
  ((tcUniverse g t).map (tcCost g)).sum + 2

/-- Modelled from the spec: `transitiveClosure(graph, target)` computed by
depth-first visitation of the target's dependency subtree, each node included
after its own dependencies; the target itself is excluded. -/
def transitiveClosure (g : Graph) (t : Kind) : List Kind :=
  (tcGo g t (tcFuel g t) [t] ([], [])).2

/-- Executable acyclicity check for the declared graph: no declared kind can
reach itself through the dependency relation. -/
def AcyclicB (g : Graph) : Bool :=
  (allKinds g).all fun k =>
    (dependenciesOf g k).all fun d =>
      !(decide (d = k)) && !(decide (k ∈ transitiveClosure g d))

/-- Mathematical acyclicity: no kind reaches itself via one or more
dependency steps. -/
def Acyclic (g : Graph) : Prop :=
  ∀ k, ¬ Relation.TransGen (depStep g) k k

/-! ### Basic lemmas about the depth-first closure computation -/

/-- The visited set and the result only grow. -/
theorem tcGo_mono (g : Graph) (t : Kind) :
    ∀ (f : Nat) (ks : List Kind) (st : List Kind × List Kind),
      st.1 ⊆ (tcGo g t f ks st).1 ∧ st.2 ⊆ (tcGo g t f ks st).2 := by
  intro f
  induction f with
  | zero => intro ks st; simp [tcGo]
  | succ f ih =>
    intro ks st
    cases ks with
    | nil => simp [tcGo]
    | cons k rest =>
      by_cases hk : k ∈ st.1
      · simpa [tcGo, hk] using ih rest st
      · have h1 := ih (dependenciesOf g k) (k :: st.1, st.2)
        by_cases hkt : k = t
        · have h2 := ih rest (tcGo g t f (dependenciesOf g k) (k :: st.1, st.2))
          simp only [tcGo, if_neg hk, if_pos hkt]
          constructor
          · exact fun x hx => h2.1 (h1.1 (List.mem_cons_of_mem _ hx))
          · exact fun x hx => h2.2 (h1.2 hx)
        · set st1 := tcGo g t f (dependenciesOf g k) (k :: st.1, st.2) with hst1
          have h2 := ih rest (st1.1, st1.2 ++ [k])
          simp only [tcGo, if_neg hk, if_neg hkt]
          constructor
          · exact fun x hx => h2.1 (h1.1 (List.mem_cons_of_mem _ hx))
          · exact fun x hx => h2.2 (List.mem_append_left _ (h1.2 hx))

/-- Reachability from some member of a worklist (zero or more steps). -/
def ReachL (g : Graph) (ks : List Kind) (z : Kind) : Prop :=
  ∃ a ∈ ks, Relation.ReflTransGen (depStep g) a z

theorem reachL_of_mem {g : Graph} {ks : List Kind} {z : Kind} (h : z ∈ ks) :
    ReachL g ks z :=
  ⟨z, h, Relation.ReflTransGen.refl⟩

theorem reachL_cons_of_tail {g : Graph} {k : Kind} {ks : List Kind} {z : Kind}
    (h : ReachL g ks z) : ReachL g (k :: ks) z := by
  obtain ⟨a, ha, hr⟩ := h
  exact ⟨a, List.mem_cons_of_mem _ ha, hr⟩

theorem reachL_cons_of_deps {g : Graph} {k : Kind} {ks : List Kind} {z : Kind}
    (h : ReachL g (dependenciesOf g k) z) : ReachL g (k :: ks) z := by
  obtain ⟨a, ha, hr⟩ := h
  exact ⟨k, List.mem_cons_self _ _, Relation.ReflTransGen.head ha hr⟩

/-- Soundness: everything newly visited (or newly collected) by the
depth-first visitation is reachable from the worklist, and the target is
never collected. -/
theorem tcGo_sound (g : Graph) (t : Kind) :
    ∀ (f : Nat) (ks : List Kind) (st : List Kind × List Kind) (z : Kind),
      (z ∈ (tcGo g t f ks st).2 → z ∈ st.2 ∨ (ReachL g ks z ∧ z ≠ t)) ∧
      (z ∈ (tcGo g t f ks st).1 → z ∈ st.1 ∨ ReachL g ks z) := by
  intro f
  induction f with
  | zero => intro ks st z; exact ⟨Or.inl, Or.inl⟩
  | succ f ih =>
    intro ks st z
    cases ks with
    | nil => exact ⟨Or.inl, Or.inl⟩
    | cons k rest =>
      by_cases hk : k ∈ st.1
      · simp only [tcGo, if_pos hk]
        refine ⟨fun h => ?_, fun h => ?_⟩
        · rcases (ih rest st z).1 h with h' | ⟨hr, hz⟩
          · exact Or.inl h'
          · exact Or.inr ⟨reachL_cons_of_tail hr, hz⟩
        · rcases (ih rest st z).2 h with h' | hr
          · exact Or.inl h'
          · exact Or.inr (reachL_cons_of_tail hr)
      · simp only [tcGo, if_neg hk]
        set st1 := tcGo g t f (dependenciesOf g k) (k :: st.1, st.2) with hst1
        have hdeps := ih (dependenciesOf g k) (k :: st.1, st.2)
        -- facts about st2 in both branches
        have hres2 : ∀ z, z ∈ (if k = t then st1 else (st1.1, st1.2 ++ [k])).2 →
            z ∈ st.2 ∨ (ReachL g (k :: rest) z ∧ z ≠ t) := by
          intro z hz
          by_cases hkt : k = t
          · rw [if_pos hkt] at hz
            rcases (hdeps z).1 hz with h' | ⟨hr, hzt⟩
            · exact Or.inl h'
            · exact Or.inr ⟨reachL_cons_of_deps hr, hzt⟩
          · rw [if_neg hkt] at hz
            rcases List.mem_append.mp hz with hz1 | hz1
            · rcases (hdeps z).1 hz1 with h' | ⟨hr, hzt⟩
              · exact Or.inl h'
              · exact Or.inr ⟨reachL_cons_of_deps hr, hzt⟩
            · have : z = k := List.mem_singleton.mp hz1
              subst this
              exact Or.inr ⟨reachL_of_mem (List.mem_cons_self _ _), hkt⟩
        have hvis2 : ∀ z, z ∈ (if k = t then st1 else (st1.1, st1.2 ++ [k])).1 →
            z ∈ st.1 ∨ ReachL g (k :: rest) z := by
          intro z hz
          have hz' : z ∈ st1.1 := by
            by_cases hkt : k = t
            · rwa [if_pos hkt] at hz
            · rwa [if_neg hkt] at hz
          rcases (hdeps z).2 hz' with h' | hr
          · rcases List.mem_cons.mp h' with h'' | h''
            · subst h''; exact Or.inr (reachL_of_mem (List.mem_cons_self _ _))
            · exact Or.inl h''
          · exact Or.inr (reachL_cons_of_deps hr)
        set st2 := (if k = t then st1 else (st1.1, st1.2 ++ [k])) with hst2
        refine ⟨fun h => ?_, fun h => ?_⟩
        · rcases (ih rest st2 z).1 h with h' | ⟨hr, hz⟩
          · exact hres2 z h'
          · exact Or.inr ⟨reachL_cons_of_tail hr, hz⟩
        · rcases (ih rest st2 z).2 h with h' | hr
          · exact hvis2 z h'
          · exact Or.inr (reachL_cons_of_tail hr)

/-- Everything ever visited ends up collected, except the target and the
nodes already visited at entry. -/
theorem tcGo_res_vis (g : Graph) (t : Kind) :
    ∀ (f : Nat) (ks : List Kind) (st : List Kind × List Kind) (z : Kind),
      z ∈ (tcGo g t f ks st).2 ↔
        (z ∈ st.2 ∨ (z ∈ (tcGo g t f ks st).1 ∧ z ∉ st.1 ∧ z ≠ t)) := by
  intro f
  induction f with
  | zero =>
    intro ks st z
    constructor
    · exact Or.inl
    · rintro (h | ⟨_, hni, _⟩)
      · exact h
      · exact absurd ‹z ∈ (tcGo g t 0 ks st).1› hni
  | succ f ih =>
    intro ks st z
    cases ks with
    | nil =>
      constructor
      · exact Or.inl
      · rintro (h | ⟨hv, hni, _⟩)
        · exact h
        · exact absurd hv hni
    | cons k rest =>
      by_cases hk : k ∈ st.1
      · simpa only [tcGo, if_pos hk] using ih rest st z
      · simp only [tcGo, if_neg hk]
        set st1 := tcGo g t f (dependenciesOf g k) (k :: st.1, st.2) with hst1
        have hmono1 := tcGo_mono g t f (dependenciesOf g k) (k :: st.1, st.2)
        set st2 := (if k = t then st1 else (st1.1, st1.2 ++ [k])) with hst2
        have hst2v : st2.1 = st1.1 := by
          by_cases hkt : k = t
          · rw [hst2, if_pos hkt]
          · rw [hst2, if_neg hkt]
        have hmono2 := tcGo_mono g t f rest st2
        constructor
        · intro h
          rcases (ih rest st2 z).1 h with h2 | ⟨hv, hni2, hzt⟩
          · -- z was in st2's result
            by_cases hkt : k = t
            · rw [hst2, if_pos hkt] at h2
              rcases (ih (dependenciesOf g k) (k :: st.1, st.2) z).1 h2 with h3 | ⟨hv3, hni3, hzt3⟩
              · exact Or.inl h3
              · refine Or.inr ⟨?_, fun hz => hni3 (List.mem_cons_of_mem _ hz), hzt3⟩
                have : z ∈ st2.1 := by rw [hst2v]; exact hv3
                exact hmono2.1 this
            · rw [hst2, if_neg hkt] at h2
              rcases List.mem_append.mp h2 with h3 | h3
              · rcases (ih (dependenciesOf g k) (k :: st.1, st.2) z).1 h3 with h4 | ⟨hv4, hni4, hzt4⟩
                · exact Or.inl h4
                · refine Or.inr ⟨?_, fun hz => hni4 (List.mem_cons_of_mem _ hz), hzt4⟩
                  have : z ∈ st2.1 := by rw [hst2v]; exact hv4
                  exact hmono2.1 this
              · have hzk : z = k := List.mem_singleton.mp h3
                subst hzk
                refine Or.inr ⟨?_, hk, hkt⟩
                have : z ∈ st2.1 := by
                  rw [hst2v]; exact hmono1.1 (List.mem_cons_self _ _)
                exact hmono2.1 this
          · exact Or.inr ⟨hv, fun hz => hni2 (by rw [hst2v]; exact hmono1.1 (List.mem_cons_of_mem _ hz)), hzt⟩
        · rintro (h | ⟨hv, hni, hzt⟩)
          · -- old result members persist
            have h1 : z ∈ st1.2 := hmono1.2 h
            have h2 : z ∈ st2.2 := by
              by_cases hkt : k = t
              · rw [hst2, if_pos hkt]; exact h1
              · rw [hst2, if_neg hkt]; exact List.mem_append_left _ h1
            exact hmono2.2 h2
          · -- z is newly visited, not the target
            by_cases h2 : z ∈ st2.1
            · -- z was already visited after processing k's subtree
              have hz1 : z ∈ st1.1 := by rw [← hst2v]; exact h2
              by_cases hzk : z = k
              · subst hzk
                have hkt : ¬ z = t := hzt
                have : z ∈ st2.2 := by
                  rw [hst2, if_neg hkt]
                  exact List.mem_append_right _ (List.mem_singleton.mpr rfl)
                exact hmono2.2 this
              · have hni1 : z ∉ k :: st.1 := by
                  intro hz
                  rcases List.mem_cons.mp hz with h' | h'
                  · exact hzk h'
                  · exact hni h'
                have hz2 : z ∈ st1.2 :=
                  (ih (dependenciesOf g k) (k :: st.1, st.2) z).2 (Or.inr ⟨hz1, hni1, hzt⟩)
                have : z ∈ st2.2 := by
                  by_cases hkt : k = t
                  · rw [hst2, if_pos hkt]; exact hz2
                  · rw [hst2, if_neg hkt]; exact List.mem_append_left _ hz2
                exact hmono2.2 this
            · exact (ih rest st2 z).2 (Or.inr ⟨hv, h2, hzt⟩)

/-! ### Fuel sufficiency for the closure computation -/

/-- Remaining fuel cost for the not-yet-visited part of the universe. -/
def tcRemaining (g : Graph) (t : Kind) (vis : List Kind) : Nat :=
  (((tcUniverse g t).filter (fun u => decide (u ∉ vis))).map (tcCost g)).sum

theorem sum_map_filter_mono (c : Kind → Nat) (p q : Kind → Bool)
    (hpq : ∀ x, p x = true → q x = true) :
    ∀ U : List Kind, ((U.filter p).map c).sum ≤ ((U.filter q).map c).sum := by
  intro U
  induction U with
  | nil => simp
  | cons u rest ih =>
    by_cases hp : p u = true
    · rw [List.filter_cons_of_pos hp, List.filter_cons_of_pos (hpq u hp)]
      simp only [List.map_cons, List.sum_cons]
      exact Nat.add_le_add_left ih _
    · rw [List.filter_cons_of_neg (by simpa using hp)]
      by_cases hq : q u = true
      · rw [List.filter_cons_of_pos hq]
        simp only [List.map_cons, List.sum_cons]
        exact le_trans ih (Nat.le_add_left _ _)
      · rw [List.filter_cons_of_neg (by simpa using hq)]
        exact ih

theorem tcRemaining_mono (g : Graph) (t : Kind) {vis vis' : List Kind}
    (h : vis ⊆ vis') : tcRemaining g t vis' ≤ tcRemaining g t vis := by
  apply sum_map_filter_mono
  intro x hx
  simp only [decide_eq_true_eq] at hx ⊢
  exact fun hmem => hx (h hmem)

theorem sum_filter_vis_cons (c : Kind → Nat) (vis : List Kind) (k : Kind)
    (hk : k ∉ vis) :
    ∀ U : List Kind, k ∈ U →
      ((U.filter (fun u => decide (u ∉ k :: vis))).map c).sum + c k ≤
        ((U.filter (fun u => decide (u ∉ vis))).map c).sum := by
  intro U
  induction U with
  | nil => intro h; simp at h
  | cons u rest ih =>
    intro hkU
    by_cases hu : u = k
    · subst hu
      rw [List.filter_cons_of_neg (by simp),
        List.filter_cons_of_pos (by simpa using hk)]
      simp only [List.map_cons, List.sum_cons]
      have hmono := sum_map_filter_mono c
        (fun x => decide (x ∉ u :: vis)) (fun x => decide (x ∉ vis))
        (fun x hx => by
          simp only [decide_eq_true_eq, List.mem_cons, not_or] at hx ⊢
          exact hx.2) rest
      omega
    · have hkrest : k ∈ rest := by
        rcases List.mem_cons.mp hkU with h' | h'
        · exact absurd h' (Ne.symm hu)
        · exact h'
      by_cases huv : u ∈ vis
      · rw [List.filter_cons_of_neg (by simp [huv]),
          List.filter_cons_of_neg (by simpa using huv)]
        exact ih hkrest
      · rw [List.filter_cons_of_pos (by simp [huv, hu]),
          List.filter_cons_of_pos (by simpa using huv)]
        simp only [List.map_cons, List.sum_cons]
        have := ih hkrest
        omega

theorem tcRemaining_cons (g : Graph) (t : Kind) {vis : List Kind} {k : Kind}
    (hkU : k ∈ tcUniverse g t) (hk : k ∉ vis) :
    tcRemaining g t (k :: vis) + tcCost g k ≤ tcRemaining g t vis :=
  sum_filter_vis_cons (tcCost g) vis k hk (tcUniverse g t) hkU

theorem deps_subset_tcUniverse (g : Graph) (t : Kind) (k : Kind) :
    dependenciesOf g k ⊆ tcUniverse g t := by
  intro d hd
  unfold dependenciesOf at hd
  rcases hfind : g.decls.find? (fun p => decide (p.1 = k)) with _ | p
  · rw [hfind] at hd; simp at hd
  · rw [hfind] at hd
    have hmem : p ∈ g.decls := List.mem_of_find?_eq_some hfind
    unfold tcUniverse
    exact List.mem_cons_of_mem _ (List.mem_flatMap.mpr ⟨p, hmem, hd⟩)

/-- Completeness: with sufficient fuel, every worklist node is visited, and
the dependencies of every newly visited node are visited as well. -/
theorem tcGo_complete (g : Graph) (t : Kind) :
    ∀ (f : Nat) (ks : List Kind) (st : List Kind × List Kind),
      (∀ x ∈ ks, x ∈ tcUniverse g t) →
      f ≥ ks.length + tcRemaining g t st.1 + 1 →
      (∀ x ∈ ks, x ∈ (tcGo g t f ks st).1) ∧
      (∀ z, z ∈ (tcGo g t f ks st).1 → z ∉ st.1 →
        ∀ d ∈ dependenciesOf g z, d ∈ (tcGo g t f ks st).1) := by
  intro f
  induction f with
  | zero => intro ks st _ hfuel; omega
  | succ f ih =>
    intro ks st hU hfuel
    cases ks with
    | nil =>
      refine ⟨by simp, fun z hz hnz _ _ => absurd hz hnz⟩
    | cons k rest =>
      have hkU : k ∈ tcUniverse g t := hU k (List.mem_cons_self _ _)
      have hrestU : ∀ x ∈ rest, x ∈ tcUniverse g t :=
        fun x hx => hU x (List.mem_cons_of_mem _ hx)
      by_cases hk : k ∈ st.1
      · simp only [tcGo, if_pos hk]
        have hfuel' : f ≥ rest.length + tcRemaining g t st.1 + 1 := by
          simp only [List.length_cons] at hfuel; omega
        obtain ⟨h1, h2⟩ := ih rest st hrestU hfuel'
        refine ⟨fun x hx => ?_, h2⟩
        rcases List.mem_cons.mp hx with h' | h'
        · subst h'; exact (tcGo_mono g t f rest st).1 hk
        · exact h1 x h'
      · simp only [tcGo, if_neg hk]
        set st1 := tcGo g t f (dependenciesOf g k) (k :: st.1, st.2) with hst1
        have hdrop := tcRemaining_cons g t hkU hk
        have hdepsU : ∀ x ∈ dependenciesOf g k, x ∈ tcUniverse g t :=
          fun x hx => deps_subset_tcUniverse g t k hx
        have hfuel1 : f ≥ (dependenciesOf g k).length + tcRemaining g t (k :: st.1) + 1 := by
          have : tcCost g k = (dependenciesOf g k).length + 1 := rfl
          simp only [List.length_cons] at hfuel
          omega
        obtain ⟨hd1, hd2⟩ := ih (dependenciesOf g k) (k :: st.1, st.2) hdepsU hfuel1
        have hmono1 := tcGo_mono g t f (dependenciesOf g k) (k :: st.1, st.2)
        set st2 := (if k = t then st1 else (st1.1, st1.2 ++ [k])) with hst2
        have hst2v : st2.1 = st1.1 := by
          by_cases hkt : k = t
          · rw [hst2, if_pos hkt]
          · rw [hst2, if_neg hkt]
        have hsub2 : (k :: st.1) ⊆ st2.1 := by rw [hst2v]; exact hmono1.1
        have hfuel2 : f ≥ rest.length + tcRemaining g t st2.1 + 1 := by
          have h1 : tcRemaining g t st2.1 ≤ tcRemaining g t (k :: st.1) :=
            tcRemaining_mono g t hsub2
          have h2 : tcCost g k = (dependenciesOf g k).length + 1 := rfl
          simp only [List.length_cons] at hfuel
          omega
        obtain ⟨hr1, hr2⟩ := ih rest st2 hrestU hfuel2
        have hmono2 := tcGo_mono g t f rest st2
        refine ⟨fun x hx => ?_, fun z hz hnz d hd => ?_⟩
        · rcases List.mem_cons.mp hx with h' | h'
          · subst h'
            exact hmono2.1 (hsub2 (List.mem_cons_self _ _))
          · exact hr1 x h'
        · by_cases hz2 : z ∈ st2.1
          · -- z visited during k's subtree (or before)
            have hz1 : z ∈ st1.1 := by rw [← hst2v]; exact hz2
            by_cases hzk : z ∈ k :: st.1
            · rcases List.mem_cons.mp hzk with h' | h'
              · subst h'
                have hds : d ∈ st2.1 := by rw [hst2v]; exact hd1 d hd
                exact hmono2.1 hds
              · exact absurd h' hnz
            · have hds : d ∈ st1.1 := hd2 z hz1 hzk d hd
              exact hmono2.1 (by rw [hst2v]; exact hds)
          · exact hr2 z hz hz2 d hd

/-- The fuel chosen by `transitiveClosure` is sufficient for the whole run. -/
theorem tcFuel_sufficient (g : Graph) (t : Kind) :
    tcFuel g t ≥ ([t] : List Kind).length + tcRemaining g t [] + 1 := by
  have h : tcRemaining g t [] = ((tcUniverse g t).map (tcCost g)).sum := by
    unfold tcRemaining
    congr 1
    congr 1
    apply List.filter_eq_self.mpr
    intro a _
    simp
  unfold tcFuel
  simp only [List.length_singleton, h]
  omega

/-- Characterization of the transitive closure: its members are exactly the
kinds reachable from the target in at least one dependency step, the target
itself excluded. -/
theorem mem_transitiveClosure (g : Graph) (t z : Kind) :
    z ∈ transitiveClosure g t ↔
      Relation.TransGen (depStep g) t z ∧ z ≠ t := by
  constructor
  · intro h
    rcases (tcGo_sound g t (tcFuel g t) [t] ([], []) z).1 h with h' | ⟨⟨a, ha, hr⟩, hz⟩
    · simp at h'
    · have hat : a = t := List.mem_singleton.mp ha
      subst hat
      rcases Relation.reflTransGen_iff_eq_or_transGen.mp hr with h'' | h''
      · exact absurd h'' hz
      · exact ⟨h'', hz⟩
  · rintro ⟨htg, hzt⟩
    have hU : ∀ x ∈ ([t] : List Kind), x ∈ tcUniverse g t := by
      intro x hx
      rcases List.mem_singleton.mp hx with rfl
      exact List.mem_cons_self _ _
    obtain ⟨h1, h2⟩ := tcGo_complete g t (tcFuel g t) [t] ([], []) hU (tcFuel_sufficient g t)
    -- every kind reachable from t is visited
    have hvis : ∀ y, Relation.TransGen (depStep g) t y →
        y ∈ (tcGo g t (tcFuel g t) [t] ([], [])).1 := by
      intro y hy
      induction hy with
      | single hstep =>
        exact h2 t (h1 t (List.mem_singleton.mpr rfl)) (by simp) _ hstep
      | tail _ hstep ihy =>
        exact h2 _ ihy (by simp) _ hstep
    have hzvis := hvis z htg
    exact (tcGo_res_vis g t (tcFuel g t) [t] ([], []) z).2 (Or.inr ⟨hzvis, by simp, hzt⟩)

/-- The closure never contains its own target. -/
theorem target_not_mem_transitiveClosure (g : Graph) (t : Kind) :
    t ∉ transitiveClosure g t := by
  intro h
  exact ((mem_transitiveClosure g t t).mp h).2 rfl

/-- A kind with at least one declared dependency is itself declared. -/
theorem mem_allKinds_of_deps (g : Graph) {k d : Kind}
    (hd : d ∈ dependenciesOf g k) : k ∈ allKinds g := by
  unfold dependenciesOf at hd
  rcases hfind : g.decls.find? (fun p => decide (p.1 = k)) with _ | p
  · rw [hfind] at hd; simp at hd
  · have hmem : p ∈ g.decls := List.mem_of_find?_eq_some hfind
    have hpk : p.1 = k := by
      have := List.find?_some hfind
      simpa using this
    exact hpk ▸ List.mem_map_of_mem Prod.fst hmem

/-- The executable acyclicity check agrees with mathematical acyclicity. -/
theorem acyclicB_iff (g : Graph) : AcyclicB g = true ↔ Acyclic g := by
  constructor
  · intro hB k hTG
    obtain ⟨d, hstep, hrest⟩ := Relation.TransGen.head'_iff.mp hTG
    have hk : k ∈ allKinds g := mem_allKinds_of_deps g hstep
    have hall := List.all_eq_true.mp hB k hk
    have hd := List.all_eq_true.mp hall d hstep
    simp only [Bool.and_eq_true, Bool.not_eq_true', decide_eq_false_iff_not] at hd
    rcases Relation.reflTransGen_iff_eq_or_transGen.mp hrest with h' | h'
    · exact hd.1 (h' ▸ rfl)
    · exact hd.2 ((mem_transitiveClosure g d k).mpr ⟨h', Ne.symm hd.1⟩)
  · intro hA
    apply List.all_eq_true.mpr
    intro k hk
    apply List.all_eq_true.mpr
    intro d hd
    simp only [Bool.and_eq_true, Bool.not_eq_true', decide_eq_false_iff_not]
    constructor
    · intro hdk
      exact hA k (Relation.TransGen.single (hdk ▸ hd))
    · intro hmem
      obtain ⟨htg, _⟩ := (mem_transitiveClosure g d k).mp hmem
      exact hA k (Relation.TransGen.head hd htg)

/-- In an acyclic graph, the closure is transitively closed: the closure of a
closure member adds no new kinds. -/
theorem transitiveClosure_fixed_point (g : Graph) (hA : Acyclic g)
    (x : Kind) :
    ∀ y ∈ transitiveClosure g x, ∀ z ∈ transitiveClosure g y,
      z ∈ transitiveClosure g x := by
  intro y hy z hz
  obtain ⟨hxy, _⟩ := (mem_transitiveClosure g x y).mp hy
  obtain ⟨hyz, _⟩ := (mem_transitiveClosure g y z).mp hz
  have hxz := hxy.trans hyz
  refine (mem_transitiveClosure g x z).mpr ⟨hxz, ?_⟩
  intro hzx
  exact hA y (hyz.trans (hzx ▸ hxy))

/-! ### Topological order (Kahn's algorithm) -/

/-- Modelled from the spec: the node set of `topologicalOrder(graph, roots)` —
the transitive closure of the roots, roots included. -/
def nodeSetOf (g : Graph) (roots : List Kind) : List Kind :=
  (roots.flatMap (fun r => transitiveClosure g r ++ [r])).dedup

/-- The processing order over the node set: declared kinds first, in
declaration order, then any remaining (undeclared) node-set members. -/
def nodeListOf (g : Graph) (roots : List Kind) : List Kind :=
  (allKinds g ++ nodeSetOf g roots).dedup.filter
    (fun k => decide (k ∈ nodeSetOf g roots))

/-- The direct dependencies of `k` that belong to the restricted node set
(duplicate declarations counted once). -/
def depsIn (g : Graph) (nodes : List Kind) (k : Kind) : List Kind :=
  (dependenciesOf g k).dedup.filter (fun d => decide (d ∈ nodes))

/-- The number of dependencies of `k` inside the node set that have not been
emitted yet: the value every stored in-degree counter must agree with. -/
def cnt (g : Graph) (nodes : List Kind) (k : Kind) (emitted : List Kind) : Nat :=
  ((depsIn g nodes k).filter (fun d => decide (d ∉ emitted))).length

/-- Modelled from the spec: the processing loop of Kahn's algorithm.  Pop the
queue front, append it to the result, decrement the stored in-degree of its
dependents, and enqueue the dependents whose in-degree thereby reaches zero;
when the queue empties, fail with the circular-dependency error (`none`) if
nodes remain unprocessed.  `fuel` bounds the iteration count; the budget
chosen in `topologicalOrder` is proved sufficient below. -/
def kahnLoop (g : Graph) (nodes : List Kind) :
    Nat → List (Kind × Nat) → List Kind → List Kind → Option (List Kind)
  | 0, _, _, _ => none
  | _ + 1, _, [], result =>
    if result.length = nodes.length then some result else none
  | f + 1, indeg, n :: queueRest, result =>
    let newly := (indeg.filter
      (fun p => decide (n ∈ (dependenciesOf g p.1).dedup) && (p.2 == 1))).map Prod.fst
    let indeg' := indeg.map
      (fun p => if n ∈ (dependenciesOf g p.1).dedup then (p.1, p.2 - 1) else p)
    kahnLoop g nodes f indeg' (queueRest ++ newly) (result ++ [n])

/-- Modelled from the spec: `topologicalOrder(graph, roots)` via Kahn's
algorithm — build in-degree counts restricted to the transitive closure of
the roots, seed the queue with the zero-in-degree nodes in declaration order,
and run the processing loop; `none` models the `CircularDependency` error. -/
def topologicalOrder (g : Graph) (roots : List Kind) : Option (List Kind) :=
  let nodes := nodeListOf g roots
  let indeg0 := nodes.map (fun k => (k, (depsIn g nodes k).length))
  let queue0 := (indeg0.filter (fun p => p.2 == 0)).map Prod.fst
  kahnLoop g nodes (nodes.length + 1) indeg0 queue0 []

/-- Every prefix of the emitted order contains the restricted dependencies of
the next emitted node. -/
def prefixClosed (g : Graph) (nodes : List Kind) (l : List Kind) : Prop :=
  ∀ i (h : i < l.length), ∀ d ∈ depsIn g nodes (l.get ⟨i, h⟩), d ∈ l.take i

theorem nodeListOf_nodup (g : Graph) (roots : List Kind) :
    (nodeListOf g roots).Nodup :=
  (List.nodup_dedup _).filter _

theorem mem_nodeListOf (g : Graph) (roots : List Kind) (k : Kind) :
    k ∈ nodeListOf g roots ↔ k ∈ nodeSetOf g roots := by
  unfold nodeListOf
  constructor
  · intro h
    have := List.of_mem_filter h
    simpa using this
  · intro h
    refine List.mem_filter.mpr ⟨?_, by simpa using h⟩
    exact List.mem_dedup.mpr (List.mem_append_right _ h)

theorem mem_nodeSetOf (g : Graph) (roots : List Kind) (k : Kind) :
    k ∈ nodeSetOf g roots ↔
      ∃ r ∈ roots, Relation.ReflTransGen (depStep g) r k := by
  unfold nodeSetOf
  rw [List.mem_dedup, List.mem_flatMap]
  constructor
  · rintro ⟨r, hr, hmem⟩
    rcases List.mem_append.mp hmem with h' | h'
    · obtain ⟨htg, _⟩ := (mem_transitiveClosure g r k).mp h'
      exact ⟨r, hr, htg.to_reflTransGen⟩
    · rcases List.mem_singleton.mp h'
      exact ⟨k, hr, Relation.ReflTransGen.refl⟩
  · rintro ⟨r, hr, hrk⟩
    refine ⟨r, hr, ?_⟩
    rcases Relation.reflTransGen_iff_eq_or_transGen.mp hrk with h' | h'
    · subst h'; exact List.mem_append_right _ (List.mem_singleton.mpr rfl)
    · by_cases hkr : k = r
      · subst hkr
        exact List.mem_append_right _ (List.mem_singleton.mpr rfl)
      · exact List.mem_append_left _ ((mem_transitiveClosure g r k).mpr ⟨h', hkr⟩)

theorem depsIn_nodup (g : Graph) (nodes : List Kind) (k : Kind) :
    (depsIn g nodes k).Nodup :=
  (List.nodup_dedup _).filter _

theorem depsIn_subset_nodes (g : Graph) (nodes : List Kind) (k : Kind) :
    ∀ d ∈ depsIn g nodes k, d ∈ nodes := by
  intro d hd
  have := List.of_mem_filter hd
  simpa using this

theorem depsIn_subset_deps (g : Graph) (nodes : List Kind) (k : Kind) :
    ∀ d ∈ depsIn g nodes k, d ∈ dependenciesOf g k := by
  intro d hd
  exact List.mem_dedup.mp (List.mem_of_mem_filter hd)

theorem mem_depsIn (g : Graph) (nodes : List Kind) (k d : Kind) :
    d ∈ depsIn g nodes k ↔ d ∈ dependenciesOf g k ∧ d ∈ nodes := by
  unfold depsIn
  rw [List.mem_filter, List.mem_dedup]
  simp

theorem length_filter_mono {α : Type} (p q : α → Bool)
    (h : ∀ x, p x = true → q x = true) :
    ∀ l : List α, (l.filter p).length ≤ (l.filter q).length := by
  intro l
  induction l with
  | nil => simp
  | cons a rest ih =>
    by_cases hp : p a = true
    · rw [List.filter_cons_of_pos hp, List.filter_cons_of_pos (h a hp)]
      simpa using ih
    · rw [List.filter_cons_of_neg (by simpa using hp)]
      by_cases hq : q a = true
      · rw [List.filter_cons_of_pos hq]
        exact le_trans ih (by simp)
      · rw [List.filter_cons_of_neg (by simpa using hq)]
        exact ih

/-- Emitting more nodes can only decrease a counter. -/
theorem cnt_anti (g : Graph) (nodes : List Kind) (k : Kind)
    {emitted emitted' : List Kind} (h : ∀ x ∈ emitted, x ∈ emitted') :
    cnt g nodes k emitted' ≤ cnt g nodes k emitted := by
  apply length_filter_mono
  intro x hx
  simp only [decide_eq_true_eq] at hx ⊢
  exact fun hmem => hx (h x hmem)

theorem filter_not_mem_append_singleton (L : List Kind) (hL : L.Nodup)
    (result : List Kind) (n : Kind) :
    ((L.filter (fun d => decide (d ∉ result ++ [n]))).length)
        + (if n ∈ L ∧ n ∉ result then 1 else 0)
      = (L.filter (fun d => decide (d ∉ result))).length := by
  induction L with
  | nil => simp
  | cons d rest ih =>
    have hrest := hL.of_cons
    by_cases hdn : d = n
    · subst hdn
      have hnr : d ∉ rest := (List.nodup_cons.mp hL).1
      have hfe : rest.filter (fun x => decide (x ∉ result ++ [d]))
          = rest.filter (fun x => decide (x ∉ result)) := by
        apply List.filter_congr
        intro x hx
        have hxd : x ≠ d := fun h => hnr (h ▸ hx)
        simp [List.mem_append, hxd]
      by_cases hdr : d ∈ result
      · rw [List.filter_cons_of_neg (by simp [hdr]),
          List.filter_cons_of_neg (by simpa using hdr), hfe]
        simp [hdr]
      · rw [List.filter_cons_of_neg (by simp),
          List.filter_cons_of_pos (by simpa using hdr), hfe]
        simp [hdr]
    · have hcond : (n ∈ d :: rest ∧ n ∉ result) ↔ (n ∈ rest ∧ n ∉ result) := by
        constructor
        · rintro ⟨h1, h2⟩
          rcases List.mem_cons.mp h1 with h' | h'
          · exact absurd h'.symm hdn
          · exact ⟨h', h2⟩
        · rintro ⟨h1, h2⟩
          exact ⟨List.mem_cons_of_mem _ h1, h2⟩
      by_cases hdr : d ∈ result
      · rw [List.filter_cons_of_neg (by simp [hdr]),
          List.filter_cons_of_neg (by simpa using hdr)]
        rw [if_congr hcond rfl rfl]
        exact ih hrest
      · rw [List.filter_cons_of_pos (by simp [hdr, hdn]),
          List.filter_cons_of_pos (by simpa using hdr)]
        simp only [List.length_cons]
        rw [if_congr hcond rfl rfl]
        have := ih hrest
        omega

/-- Effect on a counter of emitting a node that is one of `k`'s remaining
restricted dependencies. -/
theorem cnt_append_of_dep (g : Graph) (nodes : List Kind) (k : Kind)
    {result : List Kind} {n : Kind} (hdep : n ∈ depsIn g nodes k)
    (hnr : n ∉ result) :
    cnt g nodes k (result ++ [n]) + 1 = cnt g nodes k result := by
  have h := filter_not_mem_append_singleton (depsIn g nodes k)
    (depsIn_nodup g nodes k) result n
  rw [if_pos ⟨hdep, hnr⟩] at h
  exact h

/-- Emitting a node that is not one of `k`'s restricted dependencies leaves
the counter unchanged. -/
theorem cnt_append_of_not_dep (g : Graph) (nodes : List Kind) (k : Kind)
    {result : List Kind} {n : Kind} (hdep : n ∉ depsIn g nodes k) :
    cnt g nodes k (result ++ [n]) = cnt g nodes k result := by
  have h := filter_not_mem_append_singleton (depsIn g nodes k)
    (depsIn_nodup g nodes k) result n
  rw [if_neg (fun hc => hdep hc.1), Nat.add_zero] at h
  exact h

/-- A zero counter means every restricted dependency has been emitted. -/
theorem cnt_eq_zero_iff (g : Graph) (nodes : List Kind) (k : Kind)
    (emitted : List Kind) :
    cnt g nodes k emitted = 0 ↔ ∀ d ∈ depsIn g nodes k, d ∈ emitted := by
  unfold cnt
  rw [List.length_eq_zero, List.filter_eq_nil_iff]
  constructor
  · intro h d hd
    by_contra hne
    exact h d hd (by simpa using hne)
  · intro h d hd hdec
    rw [decide_eq_true_eq] at hdec
    exact hdec (h d hd)

/-- Emitted nodes have zero counters whenever the emitted order is
prefix-closed. -/
theorem cnt_emitted_zero (g : Graph) (nodes : List Kind) {result : List Kind}
    (hclosed : prefixClosed g nodes result) :
    ∀ m ∈ result, cnt g nodes m result = 0 := by
  intro m hm
  obtain ⟨i, hget⟩ := List.mem_iff_get.mp hm
  rw [cnt_eq_zero_iff]
  intro d hd
  have hmem := hclosed i.1 i.2 d (by simp only [Fin.eta, hget]; exact hd)
  exact List.mem_of_mem_take hmem

theorem map_fst_filter_map_pair (c : Kind → Nat) (P : Kind → Bool) (Q : Nat → Bool) :
    ∀ nodes : List Kind,
      ((nodes.map (fun k => (k, c k))).filter (fun p => P p.1 && Q p.2)).map Prod.fst
        = nodes.filter (fun k => P k && Q (c k)) := by
  intro nodes
  induction nodes with
  | nil => simp
  | cons k rest ih =>
    simp only [List.map_cons, List.filter_cons]
    by_cases h : (P k && Q (c k)) = true
    · simp [h, ih]
    · simp [h, ih]

theorem prefixClosed_append (g : Graph) (nodes : List Kind)
    {result : List Kind} {n : Kind} (hc : prefixClosed g nodes result)
    (hn : ∀ d ∈ depsIn g nodes n, d ∈ result) :
    prefixClosed g nodes (result ++ [n]) := by
  intro i hi d hd
  rcases Nat.lt_or_ge i result.length with h' | h'
  · have hget : (result ++ [n]).get ⟨i, hi⟩ = result.get ⟨i, h'⟩ := by
      simp only [List.get_eq_getElem]
      exact List.getElem_append_left h'
    rw [hget] at hd
    rw [List.take_append_of_le_length (Nat.le_of_lt h')]
    exact hc i h' d hd
  · have hlen : i = result.length := by
      simp only [List.length_append, List.length_singleton] at hi
      omega
    subst hlen
    have hget : (result ++ [n]).get ⟨result.length, hi⟩ = n := by
      simp only [List.get_eq_getElem]
      rw [List.getElem_append_right (le_refl _)]
      simp
    rw [hget] at hd
    rw [List.take_left]
    exact hn d hd

theorem nodup_subset_length_le {l l' : List Kind} (h : l.Nodup)
    (hsub : ∀ x ∈ l, x ∈ l') : l.length ≤ l'.length := by
  have h1 : l.toFinset.card = l.length := by
    rw [List.card_toFinset, List.dedup_eq_self.mpr h]
  have h2 : l.toFinset ⊆ l'.toFinset := fun x hx =>
    List.mem_toFinset.mpr (hsub x (List.mem_toFinset.mp hx))
  have h3 := Finset.card_le_card h2
  have h4 := l'.toFinset_card_le
  omega

theorem nodup_subset_length_eq_cover {l nodes : List Kind} (hl : l.Nodup)
    (hn : nodes.Nodup) (hsub : ∀ x ∈ l, x ∈ nodes)
    (hlen : l.length = nodes.length) : ∀ k, k ∈ l ↔ k ∈ nodes := by
  have h1 : l.toFinset.card = l.length := by
    rw [List.card_toFinset, List.dedup_eq_self.mpr hl]
  have h2 : nodes.toFinset.card = nodes.length := by
    rw [List.card_toFinset, List.dedup_eq_self.mpr hn]
  have h3 : l.toFinset ⊆ nodes.toFinset := fun x hx =>
    List.mem_toFinset.mpr (hsub x (List.mem_toFinset.mp hx))
  have h4 : l.toFinset = nodes.toFinset :=
    Finset.eq_of_subset_of_card_le h3 (by omega)
  intro k
  rw [← List.mem_toFinset, ← List.mem_toFinset, h4]

/-- The loop invariant of Kahn's algorithm: stored counters agree with the
recomputed in-degrees, the result and queue are disjoint node-set members
without duplicates, queued nodes have all restricted dependencies emitted,
zero-counter nodes are accounted for, and the emitted order is
dependency-closed prefix by prefix. -/
structure KahnInv (g : Graph) (nodes : List Kind) (indeg : List (Kind × Nat))
    (queue result : List Kind) : Prop where
  hindeg : indeg = nodes.map fun k => (k, cnt g nodes k result)
  hresN : result.Nodup
  hqueN : queue.Nodup
  hdisj : ∀ x ∈ result, x ∉ queue
  hresS : ∀ x ∈ result, x ∈ nodes
  hqueS : ∀ x ∈ queue, x ∈ nodes
  hqueZ : ∀ m ∈ queue, cnt g nodes m result = 0
  hzero : ∀ m ∈ nodes, cnt g nodes m result = 0 → m ∈ result ∨ m ∈ queue
  hclosed : prefixClosed g nodes result

/-- One iteration of the loop preserves the invariant. -/
theorem kahnInv_step (g : Graph) (nodes : List Kind) (hN : nodes.Nodup)
    {indeg : List (Kind × Nat)} {n : Kind} {queueRest result : List Kind}
    (inv : KahnInv g nodes indeg (n :: queueRest) result) :
    KahnInv g nodes
      (indeg.map (fun p => if n ∈ (dependenciesOf g p.1).dedup then (p.1, p.2 - 1) else p))
      (queueRest ++ (indeg.filter
        (fun p => decide (n ∈ (dependenciesOf g p.1).dedup) && (p.2 == 1))).map Prod.fst)
      (result ++ [n]) := by
  have hnq : n ∈ n :: queueRest := List.mem_cons_self _ _
  have hnN : n ∈ nodes := inv.hqueS n hnq
  have hnr : n ∉ result := fun h => inv.hdisj n h hnq
  have hncnt : cnt g nodes n result = 0 := inv.hqueZ n hnq
  have hnqr : n ∉ queueRest := (List.nodup_cons.mp inv.hqueN).1
  have hqrN : queueRest.Nodup := (List.nodup_cons.mp inv.hqueN).2
  -- the newly enqueued nodes, rewritten through the counter map
  have hnewly : (indeg.filter
      (fun p => decide (n ∈ (dependenciesOf g p.1).dedup) && (p.2 == 1))).map Prod.fst
      = nodes.filter (fun k =>
          decide (n ∈ (dependenciesOf g k).dedup) && (cnt g nodes k result == 1)) := by
    rw [inv.hindeg]
    exact map_fst_filter_map_pair (fun k => cnt g nodes k result)
      (fun k => decide (n ∈ (dependenciesOf g k).dedup)) (fun x => x == 1) nodes
  have hmem_newly : ∀ m, m ∈ (indeg.filter
      (fun p => decide (n ∈ (dependenciesOf g p.1).dedup) && (p.2 == 1))).map Prod.fst ↔
      (m ∈ nodes ∧ n ∈ (dependenciesOf g m).dedup ∧ cnt g nodes m result = 1) := by
    intro m
    rw [hnewly, List.mem_filter]
    simp only [Bool.and_eq_true, decide_eq_true_eq, Nat.beq_eq_true_eq]
  -- effect of emitting n on an arbitrary counter
  have hcnt_upd : ∀ k ∈ nodes, cnt g nodes k (result ++ [n]) =
      (if n ∈ (dependenciesOf g k).dedup then cnt g nodes k result - 1
       else cnt g nodes k result) := by
    intro k _
    by_cases hdep : n ∈ (dependenciesOf g k).dedup
    · have hdepsIn : n ∈ depsIn g nodes k :=
        List.mem_filter.mpr ⟨hdep, by simpa using hnN⟩
      have := cnt_append_of_dep g nodes k hdepsIn hnr
      rw [if_pos hdep]
      omega
    · have hdepsIn : n ∉ depsIn g nodes k := fun h =>
        hdep (List.mem_of_mem_filter h)
      rw [if_neg hdep]
      exact cnt_append_of_not_dep g nodes k hdepsIn
  have hresZ := cnt_emitted_zero g nodes inv.hclosed
  have hcnt_anti : ∀ k, cnt g nodes k (result ++ [n]) ≤ cnt g nodes k result :=
    fun k => cnt_anti g nodes k (fun x hx => List.mem_append_left _ hx)
  refine ⟨?_, ?_, ?_, ?_, ?_, ?_, ?_, ?_, ?_⟩
  · -- counters stay correct
    rw [inv.hindeg, List.map_map]
    apply List.map_congr_left
    intro k hk
    simp only [Function.comp_apply]
    rw [hcnt_upd k hk]
    by_cases hdep : n ∈ (dependenciesOf g k).dedup
    · rw [if_pos hdep, if_pos hdep]
    · rw [if_neg hdep, if_neg hdep]
  · -- result stays duplicate-free
    simp only [List.nodup_append, List.nodup_cons]
    exact ⟨inv.hresN, ⟨by simp, List.nodup_nil⟩, by simpa using hnr⟩
  · -- queue stays duplicate-free
    rw [List.nodup_append]
    refine ⟨hqrN, ?_, ?_⟩
    · rw [hnewly]
      exact hN.filter _
    · intro x hx
      rw [hmem_newly x]
      rintro ⟨_, _, hc1⟩
      have := inv.hqueZ x (List.mem_cons_of_mem _ hx)
      omega
  · -- result and queue stay disjoint
    intro x hx
    rw [List.mem_append, not_or]
    rcases List.mem_append.mp hx with hx' | hx'
    · constructor
      · exact fun hq => inv.hdisj x hx' (List.mem_cons_of_mem _ hq)
      · rw [hmem_newly x]
        rintro ⟨_, _, hc1⟩
        have := hresZ x hx'
        omega
    · have hxn : x = n := List.mem_singleton.mp hx'
      subst hxn
      constructor
      · exact hnqr
      · rw [hmem_newly x]
        rintro ⟨_, _, hc1⟩
        omega
  · -- result members are node-set members
    intro x hx
    rcases List.mem_append.mp hx with hx' | hx'
    · exact inv.hresS x hx'
    · rcases List.mem_singleton.mp hx'
      exact hnN
  · -- queue members are node-set members
    intro x hx
    rcases List.mem_append.mp hx with hx' | hx'
    · exact inv.hqueS x (List.mem_cons_of_mem _ hx')
    · exact ((hmem_newly x).mp hx').1
  · -- queued nodes have all restricted dependencies emitted
    intro m hm
    rcases List.mem_append.mp hm with hm' | hm'
    · have h0 := inv.hqueZ m (List.mem_cons_of_mem _ hm')
      have := hcnt_anti m
      omega
    · obtain ⟨hmN, hdep, hc1⟩ := (hmem_newly m).mp hm'
      rw [hcnt_upd m hmN, if_pos hdep, hc1]
  · -- zero counters are accounted for
    intro m hmN h0
    by_cases hprev : cnt g nodes m result = 0
    · rcases inv.hzero m hmN hprev with h' | h'
      · exact Or.inl (List.mem_append_left _ h')
      · rcases List.mem_cons.mp h' with h'' | h''
        · exact Or.inl (List.mem_append_right _ (by simp [h'']))
        · exact Or.inr (List.mem_append_left _ h'')
    · by_cases hdep : n ∈ (dependenciesOf g m).dedup
      · have hupd := hcnt_upd m hmN
        rw [if_pos hdep] at hupd
        have hc1 : cnt g nodes m result = 1 := by omega
        exact Or.inr (List.mem_append_right _
          ((hmem_newly m).mpr ⟨hmN, hdep, hc1⟩))
      · have hupd := hcnt_upd m hmN
        rw [if_neg hdep] at hupd
        omega
  · -- the emitted order stays dependency-closed
    apply prefixClosed_append g nodes inv.hclosed
    intro d hd
    have := (cnt_eq_zero_iff g nodes n result).mp hncnt d hd
    exact this

/-- In a finite nonempty set in which every member has a direct dependency
inside the set, the dependency relation has a cycle. -/
theorem exists_self_transGen_of_succ (g : Graph) (R : List Kind) (hne : R ≠ [])
    (hstep : ∀ m ∈ R, ∃ d, d ∈ dependenciesOf g m ∧ d ∈ R) :
    ∃ x, Relation.TransGen (depStep g) x x := by
  classical
  obtain ⟨r0, hr0⟩ : ∃ r, r ∈ R := by
    cases R with
    | nil => exact absurd rfl hne
    | cons a l => exact ⟨a, List.mem_cons_self _ _⟩
  let step : {x // x ∈ R} → {x // x ∈ R} := fun p =>
    ⟨(hstep p.1 p.2).choose, (hstep p.1 p.2).choose_spec.2⟩
  let w : Nat → {x // x ∈ R} := fun n => Nat.rec ⟨r0, hr0⟩ (fun _ p => step p) n
  have hw : ∀ n, depStep g (w n).1 (w (n + 1)).1 := by
    intro n
    exact (hstep (w n).1 (w n).2).choose_spec.1
  have htrans : ∀ i j, i < j → Relation.TransGen (depStep g) (w i).1 (w j).1 := by
    intro i j
    induction j with
    | zero => omega
    | succ j ihj =>
      intro hij
      rcases Nat.lt_or_ge i j with h' | h'
      · exact (ihj h').tail (hw j)
      · have hji : i = j := by omega
        subst hji
        exact Relation.TransGen.single (hw i)
  have hmaps : ∀ i ∈ Finset.range (R.length + 1), (w i).1 ∈ R.toFinset := by
    intro i _
    exact List.mem_toFinset.mpr (w i).2
  have hcard : R.toFinset.card < (Finset.range (R.length + 1)).card := by
    rw [Finset.card_range]
    exact Nat.lt_succ_of_le R.toFinset_card_le
  obtain ⟨i, hi, j, hj, hij, heq⟩ :=
    Finset.exists_ne_map_eq_of_card_lt_of_maps_to hcard hmaps
  rcases Nat.lt_or_ge i j with h' | h'
  · have ht := htrans i j h'
    rw [← heq] at ht
    exact ⟨(w i).1, ht⟩
  · have hji : j < i := by omega
    have ht := htrans j i hji
    rw [heq] at ht
    exact ⟨(w j).1, ht⟩

/-- Soundness of the Kahn loop: a successful run emits each node-set member
exactly once, in an order where restricted dependencies precede dependents. -/
theorem kahnLoop_sound (g : Graph) (nodes : List Kind) (hN : nodes.Nodup) :
    ∀ (f : Nat) (indeg : List (Kind × Nat)) (queue result : List Kind),
      KahnInv g nodes indeg queue result →
      ∀ l, kahnLoop g nodes f indeg queue result = some l →
        l.Nodup ∧ (∀ k, k ∈ l ↔ k ∈ nodes) ∧ prefixClosed g nodes l := by
  intro f
  induction f with
  | zero =>
    intro indeg queue result _ l h
    simp [kahnLoop] at h
  | succ f ih =>
    intro indeg queue result inv l h
    cases queue with
    | nil =>
      simp only [kahnLoop] at h
      by_cases hlen : result.length = nodes.length
      · rw [if_pos hlen] at h
        obtain rfl : result = l := Option.some.inj h
        exact ⟨inv.hresN, nodup_subset_length_eq_cover inv.hresN hN inv.hresS hlen,
          inv.hclosed⟩
      · rw [if_neg hlen] at h
        exact absurd h (by simp)
    | cons n queueRest =>
      simp only [kahnLoop] at h
      exact ih _ _ _ (kahnInv_step g nodes hN inv) l h

/-- Completeness of the Kahn loop: on an acyclic graph, with sufficient fuel,
the loop succeeds. -/
theorem kahnLoop_complete (g : Graph) (nodes : List Kind) (hN : nodes.Nodup)
    (hA : Acyclic g) :
    ∀ (f : Nat) (indeg : List (Kind × Nat)) (queue result : List Kind),
      KahnInv g nodes indeg queue result →
      f + result.length ≥ nodes.length + 1 →
      (kahnLoop g nodes f indeg queue result).isSome := by
  intro f
  induction f with
  | zero =>
    intro indeg queue result inv hfuel
    have := nodup_subset_length_le inv.hresN inv.hresS
    omega
  | succ f ih =>
    intro indeg queue result inv hfuel
    cases queue with
    | nil =>
      simp only [kahnLoop]
      have hcover : ∀ m ∈ nodes, m ∈ result := by
        by_contra hmiss
        push_neg at hmiss
        set R := nodes.filter (fun m => decide (m ∉ result)) with hR
        have hRne : R ≠ [] := by
          obtain ⟨m, hmN, hmr⟩ := hmiss
          intro hnil
          have : m ∈ R := List.mem_filter.mpr ⟨hmN, by simpa using hmr⟩
          rw [hnil] at this
          simp at this
        have hstep : ∀ m ∈ R, ∃ d, d ∈ dependenciesOf g m ∧ d ∈ R := by
          intro m hm
          obtain ⟨hmN, hmr⟩ := List.mem_filter.mp hm
          rw [decide_eq_true_eq] at hmr
          have hcnt : cnt g nodes m result ≠ 0 := by
            intro h0
            rcases inv.hzero m hmN h0 with h' | h'
            · exact hmr h'
            · simp at h'
          have hne' : (depsIn g nodes m).filter (fun d => decide (d ∉ result)) ≠ [] := by
            intro hcontra
            unfold cnt at hcnt
            rw [hcontra] at hcnt
            simp at hcnt
          obtain ⟨d, hd⟩ := List.exists_mem_of_ne_nil _ hne'
          obtain ⟨hd1, hd2⟩ := List.mem_filter.mp hd
          rw [decide_eq_true_eq] at hd2
          refine ⟨d, depsIn_subset_deps g nodes m d hd1, ?_⟩
          exact List.mem_filter.mpr ⟨depsIn_subset_nodes g nodes m d hd1, by simpa using hd2⟩
        obtain ⟨x, hx⟩ := exists_self_transGen_of_succ g R hRne hstep
        exact hA x hx
      have hlen : result.length = nodes.length := by
        have h1 := nodup_subset_length_le inv.hresN inv.hresS
        have h2 := nodup_subset_length_le hN hcover
        omega
      rw [if_pos hlen]
      simp
    | cons n queueRest =>
      simp only [kahnLoop]
      apply ih _ _ _ (kahnInv_step g nodes hN inv)
      rw [List.length_append]
      simp only [List.length_singleton]
      omega

theorem map_fst_filter_snd_map_pair (c : Kind → Nat) (Q : Nat → Bool) :
    ∀ nodes : List Kind,
      ((nodes.map (fun k => (k, c k))).filter (fun p => Q p.2)).map Prod.fst
        = nodes.filter (fun k => Q (c k)) := by
  intro nodes
  induction nodes with
  | nil => simp
  | cons k rest ih =>
    simp only [List.map_cons, List.filter_cons]
    by_cases h : Q (c k) = true
    · simp [h, ih]
    · simp [h, ih]

theorem cnt_nil (g : Graph) (nodes : List Kind) (k : Kind) :
    cnt g nodes k [] = (depsIn g nodes k).length := by
  unfold cnt
  congr 1
  apply List.filter_eq_self.mpr
  intro a _
  simp

/-- The initial Kahn state satisfies the loop invariant. -/
theorem kahnInv_init (g : Graph) (roots : List Kind) :
    KahnInv g (nodeListOf g roots)
      ((nodeListOf g roots).map
        (fun k => (k, (depsIn g (nodeListOf g roots) k).length)))
      ((((nodeListOf g roots).map
        (fun k => (k, (depsIn g (nodeListOf g roots) k).length))).filter
          (fun p => p.2 == 0)).map Prod.fst)
      [] := by
  set nodes := nodeListOf g roots with hnodes
  have hN : nodes.Nodup := nodeListOf_nodup g roots
  have hq : (((nodes.map (fun k => (k, (depsIn g nodes k).length))).filter
      (fun p => p.2 == 0)).map Prod.fst)
      = nodes.filter (fun k => (depsIn g nodes k).length == 0) :=
    map_fst_filter_snd_map_pair (fun k => (depsIn g nodes k).length)
      (fun x => x == 0) nodes
  refine ⟨?_, List.nodup_nil, ?_, ?_, ?_, ?_, ?_, ?_, ?_⟩
  · apply List.map_congr_left
    intro k _
    rw [cnt_nil]
  · rw [hq]
    exact hN.filter _
  · intro x hx
    simp at hx
  · intro x hx
    simp at hx
  · intro x hx
    rw [hq] at hx
    exact List.mem_of_mem_filter hx
  · intro m hm
    rw [hq] at hm
    obtain ⟨_, hc⟩ := List.mem_filter.mp hm
    rw [cnt_nil]
    simpa using hc
  · intro m hmN h0
    refine Or.inr ?_
    rw [hq]
    refine List.mem_filter.mpr ⟨hmN, ?_⟩
    rw [cnt_nil] at h0
    simpa using h0
  · intro i hi
    simp at hi

/-- A successful topological order is duplicate-free, enumerates the node set
exactly, and is prefix-closed under restricted dependencies. -/
theorem topologicalOrder_sound (g : Graph) (roots : List Kind) :
    ∀ l, topologicalOrder g roots = some l →
      l.Nodup ∧ (∀ k, k ∈ l ↔ k ∈ nodeListOf g roots) ∧
        prefixClosed g (nodeListOf g roots) l := by
  intro l h
  unfold topologicalOrder at h
  exact kahnLoop_sound g (nodeListOf g roots) (nodeListOf_nodup g roots)
    _ _ _ _ (kahnInv_init g roots) l h

/-- On an acyclic graph, `topologicalOrder` always succeeds. -/
theorem topologicalOrder_complete (g : Graph) (roots : List Kind)
    (hA : Acyclic g) : ∃ l, topologicalOrder g roots = some l := by
  rw [← Option.isSome_iff_exists]
  unfold topologicalOrder
  apply kahnLoop_complete g (nodeListOf g roots) (nodeListOf_nodup g roots) hA
    _ _ _ _ (kahnInv_init g roots)
  simp

/-- The node set is closed under direct dependencies. -/
theorem nodeSetOf_dep_closed (g : Graph) (roots : List Kind) :
    ∀ k ∈ nodeSetOf g roots, ∀ d ∈ dependenciesOf g k,
      d ∈ nodeSetOf g roots := by
  intro k hk d hd
  obtain ⟨r, hr, hrk⟩ := (mem_nodeSetOf g roots k).mp hk
  exact (mem_nodeSetOf g roots d).mpr ⟨r, hr, hrk.tail hd⟩

theorem indexOf_lt_of_mem_take {a : Kind} :
    ∀ (l : List Kind) (i : Nat), a ∈ l.take i → l.indexOf a < i := by
  intro l
  induction l with
  | nil => intro i h; simp at h
  | cons x xs ih =>
    intro i h
    cases i with
    | zero => simp at h
    | succ i =>
      rw [List.take_succ_cons] at h
      rcases List.mem_cons.mp h with h' | h'
      · subst h'
        rw [List.indexOf_cons_self]
        omega
      · by_cases hax : x = a
        · subst hax
          rw [List.indexOf_cons_self]
          omega
        · rw [List.indexOf_cons_ne _ hax]
          have := ih i h'
          omega

/-- In a successful topological order, every direct dependency of an emitted
kind is emitted strictly earlier. -/
theorem topo_index_lt (g : Graph) (roots : List Kind) {l : List Kind}
    (h : topologicalOrder g roots = some l) :
    ∀ n ∈ l, ∀ d ∈ dependenciesOf g n, l.indexOf d < l.indexOf n := by
  obtain ⟨hnd, hcov, hclosed⟩ := topologicalOrder_sound g roots l h
  intro n hn d hd
  have hnS : n ∈ nodeSetOf g roots :=
    (mem_nodeListOf g roots n).mp ((hcov n).mp hn)
  have hdS : d ∈ nodeSetOf g roots := nodeSetOf_dep_closed g roots n hnS d hd
  have hdN : d ∈ nodeListOf g roots := (mem_nodeListOf g roots d).mpr hdS
  have hdIn : d ∈ depsIn g (nodeListOf g roots) n :=
    (mem_depsIn g (nodeListOf g roots) n d).mpr ⟨hd, hdN⟩
  have hi : l.indexOf n < l.length := List.indexOf_lt_length.mpr hn
  have hget : l.get ⟨l.indexOf n, hi⟩ = n := List.indexOf_get hi
  have htake := hclosed (l.indexOf n) hi d (by rw [hget]; exact hdIn)
  exact indexOf_lt_of_mem_take l (l.indexOf n) htake

/-- The previous ordering fact extended to transitive dependencies. -/
theorem topo_index_lt_transGen (g : Graph) (roots : List Kind) {l : List Kind}
    (h : topologicalOrder g roots = some l) :
    ∀ n ∈ l, ∀ m, Relation.TransGen (depStep g) n m →
      l.indexOf m < l.indexOf n := by
  obtain ⟨hnd, hcov, hclosed⟩ := topologicalOrder_sound g roots l h
  intro n hn m htg
  have hmem : ∀ b, Relation.TransGen (depStep g) n b → b ∈ l := by
    intro b hb
    have hnS : n ∈ nodeSetOf g roots :=
      (mem_nodeListOf g roots n).mp ((hcov n).mp hn)
    obtain ⟨r, hr, hrn⟩ := (mem_nodeSetOf g roots n).mp hnS
    have hrb : Relation.ReflTransGen (depStep g) r b :=
      hrn.trans hb.to_reflTransGen
    exact (hcov b).mpr ((mem_nodeListOf g roots b).mpr
      ((mem_nodeSetOf g roots b).mpr ⟨r, hr, hrb⟩))
  induction htg with
  | single hstep => exact topo_index_lt g roots h n hn _ hstep
  | tail hnb hstep ih =>
    have hb := hmem _ hnb
    have h1 := topo_index_lt g roots h _ hb _ hstep
    have h2 := ih
    omega

/-! ### Plan builder -/

/-- One entry of a deployment plan. -/
structure PlanEntry where
  name : Kind
  display_name : String
  status : String
  order : Nat
deriving DecidableEq

/-- Modelled from the spec: the derived, ephemeral deployment plan. -/
structure DeploymentPlan where
  target_service : Kind
  target_display_name : String
  dependencies : List PlanEntry
  total_to_install : Nat
  message : String
deriving DecidableEq

/-- Modelled from the spec: `buildDeploymentPlan(graph, target, installedKinds)`
— order the transitive closure of the target topologically, classify each kind
`installed` or `will_install`, number the entries from zero, and count the
`will_install` entries; `none` models the `CircularDependency` error. -/
def buildDeploymentPlan (g : Graph) (target : Kind)
    (installedKinds : List Kind) : Option DeploymentPlan :=
  match topologicalOrder g (transitiveClosure g target) with
  | none => none
  | some ordered =>
    let entries := ordered.enum.map (fun p =>
      ⟨p.2, displayName g p.2,
        if p.2 ∈ installedKinds then ("installed") else ("will_install"), p.1⟩)
    let total := (entries.filter (fun e => e.status == "will_install")).length
    some ⟨target, displayName g target, entries, total,
      ("Will install ") ++ toString total ++ (" dependency service(s) before ")
        ++ displayName g target ++ (".")⟩

/-- An installed-service record as the deletion planner sees it. -/
structure InstalledServiceRec where
  id : Nat
  name : Kind
  display_name : String
deriving DecidableEq

/-- Modelled from the spec: the derived, ephemeral deletion plan. -/
structure DeletionPlan where
  target : InstalledServiceRec
  dependents : List InstalledServiceRec
  total_deletions : Nat
deriving DecidableEq

/-- Modelled from the spec: `buildDeletionPlan(graph, target, installedServices)`
— the dependents are the installed services whose transitive closure contains
the target's kind, ordered by reverse topological order;
`total_deletions = 1 + |dependents|`. -/
def buildDeletionPlan (g : Graph) (target : InstalledServiceRec)
    (installedServices : List InstalledServiceRec) : Option DeletionPlan :=
  let deps := installedServices.filter
    (fun s => decide (target.name ∈ transitiveClosure g s.name))
  match topologicalOrder g (deps.map (fun s => s.name)) with
  | none => none
  | some ordered =>
    let dependents := ordered.reverse.filterMap
      (fun k => deps.find? (fun s => decide (s.name = k)))
    some ⟨target, dependents, 1 + dependents.length⟩

/-! ### Orchestrator -/

/-- A persisted installed-service record (the fields the orchestrator and the
reconciler read and write). -/
structure InstalledService where
  name : Kind
  status : String
  last_checked : Nat
deriving DecidableEq

/-- Modelled from the spec: the record persisted right after a successful
apply, with status `deploying`. -/
def mkRecord (k : Kind) : InstalledService :=
  ⟨k, ("deploying"), 0⟩

/-- Modelled from the spec: deploy the given kinds in order against the
backend's apply operation, persisting a record after each success and stopping
immediately at the first failure, which is reported by kind. -/
def runSteps (apply : Kind → Bool) (db : List InstalledService) :
    List Kind → List InstalledService × Option Kind
  | [] => (db, none)
  | k :: rest =>
    if apply k then runSteps apply (db ++ [mkRecord k]) rest
    else (db, some k)

/-- The kinds a plan will actually deploy, in plan order. -/
def willInstallKinds (plan : DeploymentPlan) : List Kind :=
  (plan.dependencies.filter (fun e => e.status == "will_install")).map
    PlanEntry.name

/-- Modelled from the spec: `executeDeploymentPlan(plan)` — iterate the
`will_install` entries in plan order, then deploy the target itself the same
way; the second component reports the kind that failed, if any. -/
def executeDeploymentPlan (apply : Kind → Bool) (plan : DeploymentPlan)
    (db : List InstalledService) : List InstalledService × Option Kind :=
  runSteps apply db (willInstallKinds plan ++ [plan.target_service])

/-- The live pod summary returned by the deployment backend. -/
structure BackendStatus where
  ready : Nat
  total : Nat
  phase : String
deriving DecidableEq

/-- Modelled from the spec: map backend pod counts and phase to a lifecycle
status — crash/error phase means `failed`, all replicas ready `running`,
zero ready but scheduled `pending`, some-but-not-all ready `degraded`. -/
def mapStatus (b : BackendStatus) : String :=
  if b.phase == "error" || b.phase == "crash" then ("failed")
  else if b.total == 0 then ("pending")
  else if b.ready == b.total then ("running")
  else if b.ready == 0 then ("pending")
  else ("degraded")

/-- Modelled from the spec: `reconcile(service)` writes the mapped status and
a fresh last-checked timestamp to the persisted record. -/
def reconcile (s : InstalledService) (b : BackendStatus) (now : Nat) :
    InstalledService :=
  ⟨s.name, mapStatus b, now⟩

/-! ### Frontend flows (from `Services.jsx`) -/

/-- The configured cluster row the frontend reads. -/
structure ClusterRec where
  id : Nat
deriving DecidableEq

/-- A deployed-service row as returned by `GET /v1/services`. -/
structure ServiceRow where
  name : String
deriving DecidableEq

/-- The deployment-plan response fields `deployService` inspects. -/
structure DeploymentPlanResp where
  target_display_name : String
  total_to_install : Nat
deriving DecidableEq

/-- The user-visible outcome of one `deployService` invocation. -/
inductive DeployAction where
  | promptConfigureCluster
  | planError (msg : String)
  | alreadyDeployed (display : String)
  | showPlanModal (plan : DeploymentPlanResp) (serviceName : String)
  | deployNow (serviceName : String)
deriving DecidableEq

/-- From `deployService` in `Services.jsx`: without a cluster, prompt for one;
if the deployment-plan fetch fails, surface the error; if the target is
already in the services list, notify and stop; if the plan has dependencies
to install, show the plan modal; otherwise deploy directly. -/
def deployService (cluster : Option ClusterRec) (services : List ServiceRow)
    (serviceName : String)
    (planResponse : Except String DeploymentPlanResp) : DeployAction :=
  match cluster with
  | none => DeployAction.promptConfigureCluster
  | some _ =>
    match planResponse with
    | Except.error e => DeployAction.planError e
    | Except.ok plan =>
      if services.any (fun s => s.name == serviceName) then
        DeployAction.alreadyDeployed plan.target_display_name
      else if plan.total_to_install > 0 then
        DeployAction.showPlanModal plan serviceName
      else
        DeployAction.deployNow serviceName

/-- The deploy requests (`POST /v1/services`) issued directly by the returned
action; the plan modal issues none until the user confirms. -/
def deployRequests : DeployAction → List String
  | DeployAction.deployNow name => [name]
  | _ => []

/-- A dependent row of the delete-plan response. -/
structure DelSvc where
  id : Nat
  display_name : String
deriving DecidableEq

/-- The delete-plan response fields `executeDelete` inspects. -/
structure DeletePlanResp where
  target : DelSvc
  dependents : List DelSvc
  total_deletions : Nat
deriving DecidableEq

/-- The DELETE request `executeDelete` issues. -/
structure DeleteRequest where
  targetId : Nat
  cascade : Bool
deriving DecidableEq

/-- From `executeDelete` in `Services.jsx`: no request without a fetched plan;
otherwise DELETE the target with `cascade` set exactly when the plan lists at
least one dependent. -/
def executeDelete (deletePlan : Option DeletePlanResp) : Option DeleteRequest :=
  match deletePlan with
  | none => none
  | some plan => some ⟨plan.target.id, decide (plan.dependents.length > 0)⟩

/-- The observable outcome of one status poll. -/
inductive PollOutcome where
  | checked
  | logged (msg : String)
deriving DecidableEq

/-- From `checkServiceStatus` in `Services.jsx`: the backend call's error is
caught and logged; the function itself always returns. -/
def checkServiceStatus (resp : Nat → Except String Unit) (serviceId : Nat) :
    PollOutcome :=
  match resp serviceId with
  | Except.ok _ => PollOutcome.checked
  | Except.error e =>
    PollOutcome.logged (("Error checking service status: ") ++ e)

/-- From the auto-refresh effect in `Services.jsx`: one reconciliation tick
polls every service in the list. -/
def reconcileTick (resp : Nat → Except String Unit) (ids : List Nat) :
    List (Nat × PollOutcome) :=
  ids.map (fun i => (i, checkServiceStatus resp i))

/-! ### The declared graphs of the repository -/

/-- The dependency declarations documented for
`backend/src/utils/dependencies.py`, with the documented display names. -/
def backendGraph : Graph :=
  ⟨[(("kafka"), []),
    (("schema-registry"), [("kafka")]),
    (("kafka-connect"), [("kafka"), ("schema-registry")]),
    (("ksqldb"), [("kafka")]),
    (("kafka-rest"), [("kafka"), ("schema-registry")])],
   [(("kafka"), ("Apache Kafka")),
    (("schema-registry"), ("Schema Registry"))]⟩

/-- The dependency declarations of `availableServices` in `Services.jsx`. -/
def frontendGraph : Graph :=
  ⟨[(("postgres"), []),
    (("keycloak"), [("postgres")]),
    (("kafka"), []),
    (("schema-registry"), [("kafka")]),
    (("kafka-connect"), [("kafka"), ("schema-registry")]),
    (("ksqldb"), [("kafka"), ("schema-registry"), ("kafka-connect")]),
    (("kafbat-ui"), [("kafka"), ("schema-registry"), ("kafka-connect"),
      ("ksqldb"), ("keycloak")])],
   [(("postgres"), ("PostgreSQL Database")),
    (("keycloak"), ("Keycloak (Authentication)")),
    (("kafka"), ("Apache Kafka")),
    (("schema-registry"), ("Schema Registry")),
    (("kafka-connect"), ("Kafka Connect")),
    (("ksqldb"), ("ksqlDB")),
    (("kafbat-ui"), ("Kafbat UI"))]⟩

/-- The union the well-formedness claim describes: the backend declarations
plus the frontend's `postgres`, `keycloak` and `kafbat-ui` entries. -/
def combinedGraph : Graph :=
  ⟨[(("kafka"), []),
    (("schema-registry"), [("kafka")]),
    (("kafka-connect"), [("kafka"), ("schema-registry")]),
    (("ksqldb"), [("kafka")]),
    (("kafka-rest"), [("kafka"), ("schema-registry")]),
    (("postgres"), []),
    (("keycloak"), [("postgres")]),
    (("kafbat-ui"), [("kafka"), ("schema-registry"), ("kafka-connect"),
      ("ksqldb"), ("keycloak")])],
   []⟩

/-- Every declared dependency name is itself a declared kind. -/
def depsDefinedB (g : Graph) : Bool :=
  g.decls.all (fun p => p.2.all (fun d => decide (d ∈ allKinds g)))

/-- The dependency chain `[A, B, C] → T` used by the testable properties. -/
def chainGraph : Graph :=
  ⟨[(("A"), []), (("B"), [("A")]), (("C"), [("B")]), (("T"), [("C")])], []⟩

/-- Target `X` with dependents `D1` (on `X`) and `D2` (on `D1`). -/
def delGraph : Graph :=
  ⟨[(("X"), []), (("D1"), [("X")]), (("D2"), [("D1")])], []⟩

/-- A two-kind dependency cycle. -/
def cycGraph : Graph :=
  ⟨[(("a"), [("b")]), (("b"), [("a")])], []⟩

/-! ### Helper lemmas for the claim theorems -/

/-- In an acyclic graph, the node set generated by a closure is the closure
itself. -/
theorem mem_nodeSetOf_closure_iff (g : Graph) (hA : Acyclic g) (t k : Kind) :
    k ∈ nodeSetOf g (transitiveClosure g t) ↔ k ∈ transitiveClosure g t := by
  rw [mem_nodeSetOf]
  constructor
  · rintro ⟨r, hr, hrk⟩
    obtain ⟨htr, hrt⟩ := (mem_transitiveClosure g t r).mp hr
    rcases Relation.reflTransGen_iff_eq_or_transGen.mp hrk with h' | h'
    · subst h'
      exact hr
    · refine (mem_transitiveClosure g t k).mpr ⟨htr.trans h', ?_⟩
      intro hkt
      subst hkt
      exact hA r (h'.trans htr)
  · intro hk
    exact ⟨k, hk, Relation.ReflTransGen.refl⟩

theorem eq_of_nodup_map {α β : Type} {f : α → β} :
    ∀ {l : List α}, (l.map f).Nodup → ∀ a ∈ l, ∀ b ∈ l, f a = f b → a = b := by
  intro l
  induction l with
  | nil => intro _ a ha; simp at ha
  | cons x xs ih =>
    intro hnd a ha b hb hab
    rw [List.map_cons, List.nodup_cons] at hnd
    rcases List.mem_cons.mp ha with ha' | ha' <;>
      rcases List.mem_cons.mp hb with hb' | hb'
    · rw [ha', hb']
    · subst ha'
      exact absurd (hab ▸ List.mem_map_of_mem f hb') hnd.1
    · subst hb'
      exact absurd (hab ▸ List.mem_map_of_mem f ha') hnd.1
    · exact ih hnd.2 a ha' b hb' hab

theorem map_filterMap_eq_filter {α β : Type} (f : α → Option β) (h : β → α)
    (hf : ∀ a b, f a = some b → h b = a) :
    ∀ l : List α, (l.filterMap f).map h = l.filter (fun a => (f a).isSome) := by
  intro l
  induction l with
  | nil => simp
  | cons a rest ih =>
    rcases hfa : f a with _ | b
    · rw [List.filterMap_cons_none hfa, List.filter_cons_of_neg (by simp [hfa]), ih]
    · rw [List.filterMap_cons_some hfa, List.filter_cons_of_pos (by simp [hfa]),
        List.map_cons, hf a b hfa, ih]

/-- Filtering preserves the relative order of a duplicate-free list. -/
theorem filter_indexOf_lt (p : Kind → Bool) :
    ∀ (lr : List Kind), lr.Nodup → ∀ x ∈ lr.filter p, ∀ y ∈ lr.filter p,
      lr.indexOf x < lr.indexOf y →
      (lr.filter p).indexOf x < (lr.filter p).indexOf y := by
  intro lr
  induction lr with
  | nil => intro _ x hx; simp at hx
  | cons z zs ih =>
    intro hnd x hx y hy hlt
    have hznz : z ∉ zs := (List.nodup_cons.mp hnd).1
    have hzsN : zs.Nodup := (List.nodup_cons.mp hnd).2
    by_cases hp : p z = true
    · rw [List.filter_cons_of_pos hp] at hx hy ⊢
      by_cases hxz : x = z
      · subst hxz
        by_cases hyz : y = x
        · subst hyz
          omega
        · rw [List.indexOf_cons_self]
          rw [List.indexOf_cons_ne _ (fun h => hyz h.symm)]
          omega
      · have hxzs : x ∈ zs.filter p := by
          rcases List.mem_cons.mp hx with h' | h'
          · exact absurd h' hxz
          · exact h'
        by_cases hyz : y = z
        · subst hyz
          rw [List.indexOf_cons_self] at hlt
          omega
        · have hyzs : y ∈ zs.filter p := by
            rcases List.mem_cons.mp hy with h' | h'
            · exact absurd h' hyz
            · exact h'
          rw [List.indexOf_cons_ne _ (fun h => hxz h.symm),
            List.indexOf_cons_ne _ (fun h => hyz h.symm)] at hlt ⊢
          have := ih hzsN x hxzs y hyzs (by omega)
          omega
    · rw [List.filter_cons_of_neg (by simpa using hp)] at hx hy ⊢
      have hxz : x ≠ z := by
        intro h
        subst h
        exact hznz (List.mem_of_mem_filter hx)
      have hyz : y ≠ z := by
        intro h
        subst h
        exact hznz (List.mem_of_mem_filter hy)
      rw [List.indexOf_cons_ne _ (fun h => hxz h.symm),
        List.indexOf_cons_ne _ (fun h => hyz h.symm)] at hlt
      exact ih hzsN x hx y hy (by omega)

/-- The index of a member in the reversed list. -/
theorem indexOf_reverse {l : List Kind} (hN : l.Nodup) {a : Kind}
    (ha : a ∈ l) :
    l.reverse.indexOf a = l.length - 1 - l.indexOf a := by
  have hi : l.indexOf a < l.length := List.indexOf_lt_length.mpr ha
  have hri : l.length - 1 - l.indexOf a < l.reverse.length := by
    rw [List.length_reverse]
    omega
  have hget : l.reverse.get ⟨l.length - 1 - l.indexOf a, hri⟩ = a := by
    simp only [List.get_eq_getElem]
    rw [List.getElem_reverse]
    simp only [show l.length - 1 - (l.length - 1 - l.indexOf a) = l.indexOf a
      from by omega]
    exact List.getElem_indexOf hi
  have hrev : l.reverse.Nodup := List.nodup_reverse.mpr hN
  have := List.get_indexOf hrev ⟨l.length - 1 - l.indexOf a, hri⟩
  rw [hget] at this
  exact this

/-- The principal stop-on-failure property of step execution. -/
theorem runSteps_spec (apply : Kind → Bool) :
    ∀ (steps : List Kind) (db : List InstalledService) (i : Nat)
      (hi : i < steps.length),
      apply (steps.get ⟨i, hi⟩) = false →
      (∀ j (hj : j < steps.length), j < i → apply (steps.get ⟨j, hj⟩) = true) →
      runSteps apply db steps =
        (db ++ (steps.take i).map mkRecord, some (steps.get ⟨i, hi⟩)) := by
  intro steps
  induction steps with
  | nil => intro db i hi; simp at hi
  | cons k rest ih =>
    intro db i hi hfail hpre
    cases i with
    | zero =>
      have hk : apply k = false := hfail
      simp [runSteps, hk]
    | succ i =>
      have hk : apply k = true := hpre 0 (by simp) (Nat.succ_pos i)
      simp only [runSteps, hk, if_pos]
      have hi' : i < rest.length := by
        simpa using hi
      have hfail' : apply (rest.get ⟨i, hi'⟩) = false := hfail
      have hpre' : ∀ j (hj : j < rest.length), j < i →
          apply (rest.get ⟨j, hj⟩) = true := by
        intro j hj hji
        exact hpre (j + 1) (by simpa using hj) (by omega)
      rw [ih (db ++ [mkRecord k]) i hi' hfail' hpre']
      simp [List.take_succ_cons]

/-! ### Claim theorems -/

/-- C1: For every acyclic dependency graph and every set of roots,
`topologicalOrder` (computed by Kahn's algorithm) returns a sequence in which
every kind appears strictly after all of its direct dependencies. -/
theorem C1_topologicalOrder_after_deps (g : Graph) (roots : List Kind)
    (hacyc : AcyclicB g = true) :
    ∃ l, topologicalOrder g roots = some l ∧
      ∀ n ∈ l, ∀ d ∈ dependenciesOf g n, l.indexOf d < l.indexOf n := by
  obtain ⟨l, hl⟩ := topologicalOrder_complete g roots ((acyclicB_iff g).mp hacyc)
  exact ⟨l, hl, topo_index_lt g roots hl⟩

theorem C1_witness :
    ∃ l, topologicalOrder backendGraph [("kafka-connect")] = some l ∧
      ∀ n ∈ l, ∀ d ∈ dependenciesOf backendGraph n,
        l.indexOf d < l.indexOf n :=
  C1_topologicalOrder_after_deps backendGraph [("kafka-connect")] (by decide)

/-- C4: when the step at position `i` of a plan's `will_install` sequence
fails, execution stops immediately there: records are persisted for exactly
the earlier steps, none for the failed step or any later step (and none is
rolled back), and the failure report names the failed ServiceKind. -/
theorem C4_executeDeploymentPlan_stops (apply : Kind → Bool)
    (plan : DeploymentPlan) (db : List InstalledService) (i : Nat)
    (hi : i < (willInstallKinds plan).length)
    (hfail : apply ((willInstallKinds plan).get ⟨i, hi⟩) = false)
    (hpre : ∀ j (hj : j < (willInstallKinds plan).length), j < i →
      apply ((willInstallKinds plan).get ⟨j, hj⟩) = true) :
    executeDeploymentPlan apply plan db =
      (db ++ ((willInstallKinds plan).take i).map mkRecord,
        some ((willInstallKinds plan).get ⟨i, hi⟩)) := by
  unfold executeDeploymentPlan
  set steps := willInstallKinds plan with hsteps
  have hi' : i < (steps ++ [plan.target_service]).length := by
    rw [List.length_append]
    omega
  have hget : (steps ++ [plan.target_service]).get ⟨i, hi'⟩ =
      steps.get ⟨i, hi⟩ := by
    simp only [List.get_eq_getElem]
    exact List.getElem_append_left hi
  have hfail' : apply ((steps ++ [plan.target_service]).get ⟨i, hi'⟩) = false := by
    rw [hget]
    exact hfail
  have hpre' : ∀ j (hj : j < (steps ++ [plan.target_service]).length), j < i →
      apply ((steps ++ [plan.target_service]).get ⟨j, hj⟩) = true := by
    intro j hj hji
    have hjs : j < steps.length := by omega
    have hgj : (steps ++ [plan.target_service]).get ⟨j, hj⟩ =
        steps.get ⟨j, hjs⟩ := by
      simp only [List.get_eq_getElem]
      exact List.getElem_append_left hjs
    rw [hgj]
    exact hpre j hjs hji
  rw [runSteps_spec apply (steps ++ [plan.target_service]) db i hi' hfail' hpre']
  rw [hget, List.take_append_of_le_length (Nat.le_of_lt hi)]

/-- A three-step plan used to witness the stop-on-failure behaviour. -/
def examplePlan : DeploymentPlan :=
  ⟨("tgt"), ("tgt"),
   [⟨("s1"), ("s1"), ("will_install"), 0⟩,
    ⟨("s2"), ("s2"), ("will_install"), 1⟩,
    ⟨("s3"), ("s3"), ("will_install"), 2⟩],
   3, ("")⟩

/-- A backend that fails exactly on the second step's kind. -/
def exampleApply : Kind → Bool :=
  fun k => !(k == ("s2"))

theorem C4_witness :
    executeDeploymentPlan exampleApply examplePlan [] =
      ([⟨("s1"), ("deploying"), 0⟩], some ("s2")) := by
  have h := C4_executeDeploymentPlan_stops exampleApply examplePlan [] 1
    (by decide) (by decide)
    (by
      intro j hj hj1
      have hj0 : j = 0 := by omega
      subst hj0
      rfl)
  exact h

/-- C5 counterexample: on the cyclic graph `a ⇄ b`, `b` lies in the closure
of `a` while the closure of `b` contains `a`, which the closure of `a` does
not — closing over the closure adds a new kind, refuting the fixed-point
claim for arbitrary graphs. -/
theorem C5_counterexample :
    ("b") ∈ transitiveClosure cycGraph ("a") ∧
    ("a") ∈ transitiveClosure cycGraph ("b") ∧
    ("a") ∉ transitiveClosure cycGraph ("a") := by decide

/-- C5 (amended): for every graph and kind, the transitive closure never
contains the kind itself; and for every acyclic graph the closure is a fixed
point — the closures of its members add no new kinds. -/
theorem C5_transitiveClosure_props (g : Graph) (x : Kind) :
    x ∉ transitiveClosure g x ∧
    (AcyclicB g = true →
      ∀ y ∈ transitiveClosure g x, ∀ z ∈ transitiveClosure g y,
        z ∈ transitiveClosure g x) :=
  ⟨target_not_mem_transitiveClosure g x,
   fun hacyc => transitiveClosure_fixed_point g ((acyclicB_iff g).mp hacyc) x⟩

theorem C5_witness :
    ("kafka-connect") ∉ transitiveClosure backendGraph ("kafka-connect") ∧
    (∀ y ∈ transitiveClosure backendGraph ("kafka-connect"),
      ∀ z ∈ transitiveClosure backendGraph y,
        z ∈ transitiveClosure backendGraph ("kafka-connect")) :=
  ⟨(C5_transitiveClosure_props backendGraph ("kafka-connect")).1,
   (C5_transitiveClosure_props backendGraph ("kafka-connect")).2 (by decide)⟩

/-- C6: `reconcile` is idempotent — reconciling twice against an unchanged
backend status persists the same status value both times, and the second
invocation changes nothing beyond the last-checked timestamp. -/
theorem C6_reconcile_idempotent (s : InstalledService) (b : BackendStatus)
    (t1 t2 : Nat) :
    (reconcile (reconcile s b t1) b t2).status = (reconcile s b t1).status ∧
    reconcile (reconcile s b t1) b t2 =
      ⟨(reconcile s b t1).name, (reconcile s b t1).status, t2⟩ :=
  ⟨rfl, rfl⟩

/-- C7: the statically declared dependency graph is well-formed — every
dependency name referenced by the backend declarations, the frontend
declarations, and their union (as enumerated by the claim) is itself a
defined ServiceKind, and each of the three dependency relations is acyclic. -/
theorem C7_graph_well_formed :
    (depsDefinedB backendGraph = true ∧
      (∀ k ∈ allKinds backendGraph, ∀ d ∈ dependenciesOf backendGraph k,
        d ∈ allKinds backendGraph) ∧
      AcyclicB backendGraph = true ∧ Acyclic backendGraph) ∧
    (depsDefinedB frontendGraph = true ∧
      (∀ k ∈ allKinds frontendGraph, ∀ d ∈ dependenciesOf frontendGraph k,
        d ∈ allKinds frontendGraph) ∧
      AcyclicB frontendGraph = true ∧ Acyclic frontendGraph) ∧
    (depsDefinedB combinedGraph = true ∧
      (∀ k ∈ allKinds combinedGraph, ∀ d ∈ dependenciesOf combinedGraph k,
        d ∈ allKinds combinedGraph) ∧
      AcyclicB combinedGraph = true ∧ Acyclic combinedGraph) :=
  ⟨⟨by decide, by decide, by decide, (acyclicB_iff _).mp (by decide)⟩,
   ⟨by decide, by decide, by decide, (acyclicB_iff _).mp (by decide)⟩,
   ⟨by decide, by decide, by decide, (acyclicB_iff _).mp (by decide)⟩⟩

/-- C8 counterexample: with the target already in the deployed-services list,
`deployService` stops at the already-deployed notice even though the fetched
plan has `total_to_install = 0`, and no deploy request is issued — refuting
the claim that a fetched plan with zero installs always deploys immediately. -/
theorem C8_counterexample :
    deployService (some ⟨1⟩) [⟨("kafka")⟩] ("kafka")
        (Except.ok ⟨("Apache Kafka"), 0⟩)
      = DeployAction.alreadyDeployed ("Apache Kafka") ∧
    deployService (some ⟨1⟩) [⟨("kafka")⟩] ("kafka")
        (Except.ok ⟨("Apache Kafka"), 0⟩)
      ≠ DeployAction.deployNow ("kafka") ∧
    deployRequests (deployService (some ⟨1⟩) [⟨("kafka")⟩] ("kafka")
        (Except.ok ⟨("Apache Kafka"), 0⟩)) = [] := by decide

/-- C8 (amended): with a cluster configured, a fetched plan, and a target not
already in the services list, `deployService` deploys immediately and skips
the modal when `total_to_install = 0`, and shows the confirmation modal —
issuing no deploy request — when `total_to_install > 0`. -/
theorem C8_deployService_flow (c : ClusterRec) (services : List ServiceRow)
    (serviceName : String) (plan : DeploymentPlanResp)
    (hnot : services.any (fun s => s.name == serviceName) = false) :
    (plan.total_to_install = 0 →
      deployService (some c) services serviceName (Except.ok plan)
        = DeployAction.deployNow serviceName ∧
      deployRequests
        (deployService (some c) services serviceName (Except.ok plan))
        = [serviceName]) ∧
    (plan.total_to_install > 0 →
      deployService (some c) services serviceName (Except.ok plan)
        = DeployAction.showPlanModal plan serviceName ∧
      deployRequests
        (deployService (some c) services serviceName (Except.ok plan))
        = []) := by
  constructor
  · intro h0
    have hact : deployService (some c) services serviceName (Except.ok plan)
        = DeployAction.deployNow serviceName := by
      simp [deployService, hnot, h0]
    exact ⟨hact, by rw [hact]; rfl⟩
  · intro hpos
    have hact : deployService (some c) services serviceName (Except.ok plan)
        = DeployAction.showPlanModal plan serviceName := by
      simp [deployService, hnot, hpos]
    exact ⟨hact, by rw [hact]; rfl⟩

theorem C8_witness :
    ((⟨("Apache Kafka"), 0⟩ : DeploymentPlanResp).total_to_install = 0 →
      deployService (some ⟨1⟩) [] ("kafka")
          (Except.ok ⟨("Apache Kafka"), 0⟩)
        = DeployAction.deployNow ("kafka") ∧
      deployRequests (deployService (some ⟨1⟩) [] ("kafka")
          (Except.ok ⟨("Apache Kafka"), 0⟩))
        = [("kafka")]) ∧
    ((⟨("Apache Kafka"), 0⟩ : DeploymentPlanResp).total_to_install > 0 →
      deployService (some ⟨1⟩) [] ("kafka")
          (Except.ok ⟨("Apache Kafka"), 0⟩)
        = DeployAction.showPlanModal ⟨("Apache Kafka"), 0⟩ ("kafka") ∧
      deployRequests (deployService (some ⟨1⟩) [] ("kafka")
          (Except.ok ⟨("Apache Kafka"), 0⟩))
        = []) :=
  C8_deployService_flow ⟨1⟩ [] ("kafka") ⟨("Apache Kafka"), 0⟩ (by decide)

/-- C9: a failed status poll never raises — `checkServiceStatus` catches the
backend error and only logs it — and in one reconciliation tick every service
is polled, each service's outcome depending only on its own backend response,
so one service's failure cannot affect the others. -/
theorem C9_checkServiceStatus_isolated (resp resp' : Nat → Except String Unit)
    (ids : List Nat) (j : Nat) (hj : j ∈ ids) (hagree : resp j = resp' j) :
    ((reconcileTick resp ids).map Prod.fst = ids) ∧
    ((j, checkServiceStatus resp j) ∈ reconcileTick resp ids) ∧
    (checkServiceStatus resp j = checkServiceStatus resp' j) ∧
    (∀ e, resp j = Except.error e →
      checkServiceStatus resp j
        = PollOutcome.logged (("Error checking service status: ") ++ e)) := by
  refine ⟨?_, ?_, ?_, ?_⟩
  · unfold reconcileTick
    rw [List.map_map]
    have : (Prod.fst ∘ fun i => (i, checkServiceStatus resp i)) = fun i => i :=
      funext (fun i => rfl)
    rw [this, List.map_id']
  · unfold reconcileTick
    exact List.mem_map_of_mem _ hj
  · unfold checkServiceStatus
    rw [hagree]
  · intro e he
    unfold checkServiceStatus
    rw [he]

/-- A backend where every service except number 2 fails its poll. -/
def exampleResp : Nat → Except String Unit :=
  fun i => if i == 2 then Except.ok () else Except.error ("timeout")

/-- A second backend agreeing with `exampleResp` only on service 2. -/
def exampleResp' : Nat → Except String Unit :=
  fun i => if i == 2 then Except.ok () else Except.error ("unreachable")

theorem C9_witness :
    ((reconcileTick exampleResp [1, 2, 3]).map Prod.fst = [1, 2, 3]) ∧
    ((2, checkServiceStatus exampleResp 2) ∈ reconcileTick exampleResp [1, 2, 3]) ∧
    (checkServiceStatus exampleResp 2 = checkServiceStatus exampleResp' 2) ∧
    (∀ e, exampleResp 2 = Except.error e →
      checkServiceStatus exampleResp 2
        = PollOutcome.logged (("Error checking service status: ") ++ e)) :=
  C9_checkServiceStatus_isolated exampleResp exampleResp' [1, 2, 3] 2
    (by decide) rfl

/-- C10: the delete flow issues the DELETE with `cascade = true` exactly when
the fetched deletion plan lists at least one dependent — it never requests a
non-cascade delete of a target that has installed dependents — and issues no
request without a plan. -/
theorem C10_executeDelete_cascade (plan : DeletePlanResp) (req : DeleteRequest)
    (h : executeDelete (some plan) = some req) :
    req.targetId = plan.target.id ∧
    (req.cascade = true ↔ plan.dependents ≠ []) ∧
    (req.cascade = false → plan.dependents = []) ∧
    executeDelete none = none := by
  have hreq : req = ⟨plan.target.id, decide (plan.dependents.length > 0)⟩ :=
    (Option.some.inj h).symm
  subst hreq
  refine ⟨rfl, ?_, ?_, rfl⟩
  · simp only [decide_eq_true_eq]
    constructor
    · intro hlen
      intro hnil
      rw [hnil] at hlen
      simp at hlen
    · intro hne
      have := List.length_pos.mpr hne
      simpa using this
  · intro hfalse
    simp only [decide_eq_false_iff_not] at hfalse
    have : plan.dependents.length = 0 := by omega
    exact List.length_eq_zero.mp this

theorem C10_witness :
    (⟨7, true⟩ : DeleteRequest).targetId = (⟨⟨7, ("postgres")⟩,
        [⟨8, ("keycloak")⟩], 2⟩ : DeletePlanResp).target.id ∧
    ((⟨7, true⟩ : DeleteRequest).cascade = true ↔
      (⟨⟨7, ("postgres")⟩, [⟨8, ("keycloak")⟩], 2⟩ :
        DeletePlanResp).dependents ≠ []) ∧
    ((⟨7, true⟩ : DeleteRequest).cascade = false →
      (⟨⟨7, ("postgres")⟩, [⟨8, ("keycloak")⟩], 2⟩ :
        DeletePlanResp).dependents = []) ∧
    executeDelete none = none :=
  C10_executeDelete_cascade ⟨⟨7, ("postgres")⟩, [⟨8, ("keycloak")⟩], 2⟩
    ⟨7, true⟩ (by decide)

/-- C2 counterexample: on the cyclic graph `a ⇄ b` the builder reports the
circular-dependency error (`none`) instead of listing the — nonempty —
closure of the target, refuting the claim for arbitrary graphs. -/
theorem C2_counterexample :
    buildDeploymentPlan cycGraph ("a") [] = none ∧
    transitiveClosure cycGraph ("a") ≠ [] := by decide

/-- C2 (amended): for every acyclic graph, target and installed set,
`buildDeploymentPlan` lists exactly the transitive closure of the target, in
topological order; it marks each kind `installed` iff it is in
`installedKinds` and `will_install` otherwise (installed entries still
occupying an order slot, the slots numbered from zero over the whole
sequence); `total_to_install` is the count of `will_install` entries. In
particular, the chain `[A,B,C] → T` yields all-`will_install` order
`[A, B, C]` with `total_to_install = 3` when nothing is installed, and
`[A: installed, B: installed, C: will_install]` with `total_to_install = 1`
when `A` and `B` are installed. -/
theorem C2_buildDeploymentPlan (g : Graph) (target : Kind)
    (installedKinds : List Kind) (hacyc : AcyclicB g = true) :
    (∃ plan, buildDeploymentPlan g target installedKinds = some plan ∧
      (∃ ordered,
        topologicalOrder g (transitiveClosure g target) = some ordered ∧
        plan.dependencies.map PlanEntry.name = ordered) ∧
      (∀ k, k ∈ plan.dependencies.map PlanEntry.name ↔
        k ∈ transitiveClosure g target) ∧
      (∀ e ∈ plan.dependencies, e.status =
        (if e.name ∈ installedKinds then ("installed") else ("will_install"))) ∧
      plan.dependencies.map PlanEntry.order =
        List.range plan.dependencies.length ∧
      plan.total_to_install =
        (plan.dependencies.filter (fun e => e.status == "will_install")).length) ∧
    ((buildDeploymentPlan chainGraph ("T") []).map (fun p =>
        (p.dependencies.map PlanEntry.name, p.dependencies.map PlanEntry.status,
          p.total_to_install))
      = some ([("A"), ("B"), ("C")],
          [("will_install"), ("will_install"), ("will_install")], 3)) ∧
    ((buildDeploymentPlan chainGraph ("T") [("A"), ("B")]).map (fun p =>
        (p.dependencies.map PlanEntry.name, p.dependencies.map PlanEntry.status,
          p.total_to_install))
      = some ([("A"), ("B"), ("C")],
          [("installed"), ("installed"), ("will_install")], 1)) := by
  have hA := (acyclicB_iff g).mp hacyc
  obtain ⟨ordered, hord⟩ :=
    topologicalOrder_complete g (transitiveClosure g target) hA
  obtain ⟨hordN, hcov, hclosed⟩ :=
    topologicalOrder_sound g (transitiveClosure g target) ordered hord
  refine ⟨?_, by decide, by decide⟩
  set entries := ordered.enum.map (fun p =>
    (⟨p.2, displayName g p.2,
      if p.2 ∈ installedKinds then ("installed") else ("will_install"),
      p.1⟩ : PlanEntry)) with hentries
  have hbuild : buildDeploymentPlan g target installedKinds =
      some ⟨target, displayName g target, entries,
        (entries.filter (fun e => e.status == "will_install")).length,
        ("Will install ") ++
          toString ((entries.filter (fun e => e.status == "will_install")).length)
          ++ (" dependency service(s) before ") ++ displayName g target
          ++ (".")⟩ := by
    unfold buildDeploymentPlan
    rw [hord]
  refine ⟨_, hbuild, ?_, ?_, ?_, ?_, rfl⟩
  · refine ⟨ordered, hord, ?_⟩
    rw [hentries, List.map_map]
    have hc : (PlanEntry.name ∘ fun p : Nat × Kind =>
        (⟨p.2, displayName g p.2,
          if p.2 ∈ installedKinds then ("installed") else ("will_install"),
          p.1⟩ : PlanEntry)) = Prod.snd := funext (fun p => rfl)
    rw [hc, List.enum_map_snd]
  · intro k
    have hnames : entries.map PlanEntry.name = ordered := by
      rw [hentries, List.map_map]
      have hc : (PlanEntry.name ∘ fun p : Nat × Kind =>
          (⟨p.2, displayName g p.2,
            if p.2 ∈ installedKinds then ("installed") else ("will_install"),
            p.1⟩ : PlanEntry)) = Prod.snd := funext (fun p => rfl)
      rw [hc, List.enum_map_snd]
    rw [hnames, hcov k, mem_nodeListOf, mem_nodeSetOf_closure_iff g hA]
  · intro e he
    rw [hentries] at he
    obtain ⟨p, _, rfl⟩ := List.mem_map.mp he
    rfl
  · rw [hentries, List.map_map, List.length_map]
    have hc : (PlanEntry.order ∘ fun p : Nat × Kind =>
        (⟨p.2, displayName g p.2,
          if p.2 ∈ installedKinds then ("installed") else ("will_install"),
          p.1⟩ : PlanEntry)) = Prod.fst := funext (fun p => rfl)
    rw [hc, List.enum_map_fst, List.enum_length]

theorem C2_witness :
    ((buildDeploymentPlan chainGraph ("T") []).map (fun p =>
        (p.dependencies.map PlanEntry.name, p.dependencies.map PlanEntry.status,
          p.total_to_install))
      = some ([("A"), ("B"), ("C")],
          [("will_install"), ("will_install"), ("will_install")], 3)) ∧
    ((buildDeploymentPlan chainGraph ("T") [("A"), ("B")]).map (fun p =>
        (p.dependencies.map PlanEntry.name, p.dependencies.map PlanEntry.status,
          p.total_to_install))
      = some ([("A"), ("B"), ("C")],
          [("installed"), ("installed"), ("will_install")], 1)) :=
  (C2_buildDeploymentPlan chainGraph ("T") [] (by decide)).2

/-- C3: under the graph invariant (acyclicity) and the data-model invariant
(one installed instance per kind), `buildDeletionPlan` lists exactly the
installed services whose transitive closure contains the target's kind,
ordered in reverse topological order — a dependent-of-a-dependent precedes
its own dependent, so no step removes a service while something still
depending on it remains installed — and sets
`total_deletions = 1 + |dependents|`; in particular the target with installed
dependents `D1` (on the target) and `D2` (on `D1`) yields dependents
`[D2, D1]` and `total_deletions = 3`. -/
theorem C3_buildDeletionPlan (g : Graph) (target : InstalledServiceRec)
    (installedServices : List InstalledServiceRec)
    (hacyc : AcyclicB g = true)
    (hkinds : (installedServices.map (fun s => s.name)).Nodup) :
    (∃ p, buildDeletionPlan g target installedServices = some p ∧
      (∀ s, s ∈ p.dependents ↔ (s ∈ installedServices ∧
        target.name ∈ transitiveClosure g s.name)) ∧
      p.dependents.Nodup ∧
      p.total_deletions = 1 + p.dependents.length ∧
      (∀ i j (hi : i < p.dependents.length) (hj : j < p.dependents.length),
        (p.dependents.get ⟨j, hj⟩).name ∈
          transitiveClosure g ((p.dependents.get ⟨i, hi⟩).name) → i < j)) ∧
    ((buildDeletionPlan delGraph ⟨0, ("X"), ("X")⟩
        [⟨0, ("X"), ("X")⟩, ⟨1, ("D1"), ("D1")⟩, ⟨2, ("D2"), ("D2")⟩]).map
      (fun p => (p.dependents.map InstalledServiceRec.id, p.total_deletions))
      = some ([2, 1], 3)) := by
  have hA := (acyclicB_iff g).mp hacyc
  refine ⟨?_, by decide⟩
  obtain ⟨ordered, hord⟩ := topologicalOrder_complete g
    ((installedServices.filter
      (fun s => decide (target.name ∈ transitiveClosure g s.name))).map
      (fun s => s.name)) hA
  have hbuild : buildDeletionPlan g target installedServices =
      some ⟨target,
        ordered.reverse.filterMap (fun k =>
          (installedServices.filter
            (fun s => decide (target.name ∈ transitiveClosure g s.name))).find?
            (fun s => decide (s.name = k))),
        1 + (ordered.reverse.filterMap (fun k =>
          (installedServices.filter
            (fun s => decide (target.name ∈ transitiveClosure g s.name))).find?
            (fun s => decide (s.name = k)))).length⟩ := by
    simp only [buildDeletionPlan]
    rw [hord]
  set deps := installedServices.filter
    (fun s => decide (target.name ∈ transitiveClosure g s.name)) with hdeps
  set roots := deps.map (fun s => s.name) with hroots
  obtain ⟨hordN, hcov, hclosed⟩ := topologicalOrder_sound g roots ordered hord
  set pick := (fun k => deps.find? (fun s => decide (s.name = k))) with hpick
  set dependents := ordered.reverse.filterMap pick with hdependents
  have hrootsN : roots.Nodup := by
    rw [hroots, hdeps]
    exact List.Nodup.sublist
      (List.Sublist.map _ (List.filter_sublist installedServices)) hkinds
  have hfind_mem : ∀ k s, pick k = some s → s ∈ deps ∧ s.name = k := by
    intro k s h
    rw [hpick] at h
    refine ⟨List.mem_of_find?_eq_some h, ?_⟩
    have := List.find?_some h
    simpa using this
  have hfind_self : ∀ s ∈ deps, pick s.name = some s := by
    intro s hs
    have hsome : (pick s.name).isSome := by
      rw [hpick]
      rw [List.find?_isSome]
      exact ⟨s, hs, by simp⟩
    obtain ⟨s', hs'⟩ := Option.isSome_iff_exists.mp hsome
    obtain ⟨hs'd, hs'n⟩ := hfind_mem _ _ hs'
    have hnodup : (deps.map (fun s => s.name)).Nodup := by
      rw [← hroots]
      exact hrootsN
    have heq : s' = s := eq_of_nodup_map hnodup s' hs'd s hs hs'n
    rw [heq] at hs'
    exact hs'
  have hmemdep : ∀ s, s ∈ dependents ↔ s ∈ deps := by
    intro s
    constructor
    · intro h
      rw [hdependents] at h
      obtain ⟨k, _, hk⟩ := List.mem_filterMap.mp h
      exact (hfind_mem k s hk).1
    · intro hs
      rw [hdependents]
      refine List.mem_filterMap.mpr ⟨s.name, ?_, hfind_self s hs⟩
      rw [List.mem_reverse]
      rw [hcov]
      rw [mem_nodeListOf]
      refine (mem_nodeSetOf g roots s.name).mpr ⟨s.name, ?_,
        Relation.ReflTransGen.refl⟩
      rw [hroots]
      exact List.mem_map_of_mem _ hs
  have hmem : ∀ s, s ∈ dependents ↔ (s ∈ installedServices ∧
      target.name ∈ transitiveClosure g s.name) := by
    intro s
    rw [hmemdep, hdeps, List.mem_filter]
    simp
  have hrevN : ordered.reverse.Nodup := List.nodup_reverse.mpr hordN
  have hdepN : dependents.Nodup := by
    rw [hdependents]
    refine List.Nodup.filterMap ?_ hrevN
    intro a a' b hb hb'
    have h1 := (hfind_mem a b (Option.mem_def.mp hb)).2
    have h2 := (hfind_mem a' b (Option.mem_def.mp hb')).2
    rw [← h1, ← h2]
  have hnames : dependents.map (fun s => s.name)
      = ordered.reverse.filter (fun k => (pick k).isSome) := by
    rw [hdependents]
    exact map_filterMap_eq_filter pick (fun s => s.name)
      (fun a b hb => (hfind_mem a b hb).2) ordered.reverse
  have hdnN : (dependents.map (fun s => s.name)).Nodup := by
    rw [hnames]
    exact hrevN.filter _
  have horder : ∀ i j (hi : i < dependents.length)
      (hj : j < dependents.length),
      (dependents.get ⟨j, hj⟩).name ∈
        transitiveClosure g ((dependents.get ⟨i, hi⟩).name) → i < j := by
    intro i j hi hj hmem'
    obtain ⟨htg, hne⟩ := (mem_transitiveClosure g _ _).mp hmem'
    by_contra hij
    push_neg at hij
    rcases Nat.eq_or_lt_of_le hij with heq | hlt
    · have hfin : (⟨j, hj⟩ : Fin dependents.length) = ⟨i, hi⟩ :=
        Fin.ext heq
      rw [hfin] at hne
      exact hne rfl
    · -- j < i
      have hdi : i < (dependents.map (fun s => s.name)).length := by
        rw [List.length_map]
        exact hi
      have hdj : j < (dependents.map (fun s => s.name)).length := by
        rw [List.length_map]
        exact hj
      have hgi : (dependents.map (fun s => s.name)).get ⟨i, hdi⟩
          = (dependents.get ⟨i, hi⟩).name := by
        simp [List.get_eq_getElem, List.getElem_map]
      have hgj : (dependents.map (fun s => s.name)).get ⟨j, hdj⟩
          = (dependents.get ⟨j, hj⟩).name := by
        simp [List.get_eq_getElem, List.getElem_map]
      have hidxi : (dependents.map (fun s => s.name)).indexOf
          ((dependents.get ⟨i, hi⟩).name) = i := by
        rw [← hgi]
        simp only [List.get_eq_getElem]
        exact List.indexOf_getElem hdnN i hdi
      have hidxj : (dependents.map (fun s => s.name)).indexOf
          ((dependents.get ⟨j, hj⟩).name) = j := by
        rw [← hgj]
        simp only [List.get_eq_getElem]
        exact List.indexOf_getElem hdnN j hdj
      have hmi : (dependents.get ⟨i, hi⟩).name ∈
          ordered.reverse.filter (fun k => (pick k).isSome) := by
        rw [← hnames, ← hgi]
        exact List.get_mem _ _ _
      have hmj : (dependents.get ⟨j, hj⟩).name ∈
          ordered.reverse.filter (fun k => (pick k).isSome) := by
        rw [← hnames, ← hgj]
        exact List.get_mem _ _ _
      have hmi_lr : (dependents.get ⟨i, hi⟩).name ∈ ordered.reverse :=
        List.mem_of_mem_filter hmi
      have hmj_lr : (dependents.get ⟨j, hj⟩).name ∈ ordered.reverse :=
        List.mem_of_mem_filter hmj
      have hmi_ord : (dependents.get ⟨i, hi⟩).name ∈ ordered :=
        List.mem_reverse.mp hmi_lr
      have hmj_ord : (dependents.get ⟨j, hj⟩).name ∈ ordered :=
        List.mem_reverse.mp hmj_lr
      have hlr : ordered.reverse.indexOf ((dependents.get ⟨j, hj⟩).name) <
          ordered.reverse.indexOf ((dependents.get ⟨i, hi⟩).name) := by
        rcases lt_trichotomy
          (ordered.reverse.indexOf ((dependents.get ⟨j, hj⟩).name))
          (ordered.reverse.indexOf ((dependents.get ⟨i, hi⟩).name))
          with h' | h' | h'
        · exact h'
        · have heqn := (List.indexOf_inj hmj_lr hmi_lr).mp h'
          exact absurd heqn hne
        · have hflt := filter_indexOf_lt (fun k => (pick k).isSome)
            ordered.reverse hrevN _ hmi _ hmj h'
          rw [← hnames] at hflt
          rw [hidxi, hidxj] at hflt
          omega
      have hii : ordered.indexOf ((dependents.get ⟨i, hi⟩).name) <
          ordered.length := List.indexOf_lt_length.mpr hmi_ord
      have hjj : ordered.indexOf ((dependents.get ⟨j, hj⟩).name) <
          ordered.length := List.indexOf_lt_length.mpr hmj_ord
      rw [indexOf_reverse hordN hmj_ord, indexOf_reverse hordN hmi_ord] at hlr
      have htopo := topo_index_lt_transGen g roots hord _ hmi_ord _ htg
      omega
  exact ⟨⟨target, dependents, 1 + dependents.length⟩, hbuild,
    hmem, hdepN, rfl, horder⟩

theorem C3_witness :
    (buildDeletionPlan delGraph ⟨0, ("X"), ("X")⟩
        [⟨0, ("X"), ("X")⟩, ⟨1, ("D1"), ("D1")⟩, ⟨2, ("D2"), ("D2")⟩]).map
      (fun p => (p.dependents.map InstalledServiceRec.id, p.total_deletions))
      = some ([2, 1], 3) :=
  (C3_buildDeletionPlan delGraph ⟨0, ("X"), ("X")⟩
    [⟨0, ("X"), ("X")⟩, ⟨1, ("D1"), ("D1")⟩, ⟨2, ("D2"), ("D2")⟩]
    (by decide) (by decide)).2

end StreamLink
